import Mathlib

/-!
Verification of the `VirusGenealogy` container from `src/virus_genealogy.h`.

The C++ class `VirusGenealogy<Virus>` keeps a `std::map` from identifiers to
`shared_ptr<VirusNode>`; each `VirusNode` owns a `Virus` payload (constructed
from the node's identifier) and two `std::set`s of shared pointers: `parents`
and `children`.  Since identifiers are unique map keys and at any moment each
live node object corresponds to exactly one identifier, we embed the heap of
node objects as a function `Nat → VirusNode` whose parent/child sets store
identifiers, and the top-level map as the `Finset Nat` of its keys.  The
identifier type (any totally ordered type in C++) is embedded as `Nat`.

The embedding mirrors the source operation by operation:

* `VirusGenealogy.init`        — the constructor (line 101-105);
* `VirusGenealogy.get_stem_id` — `get_stem_id` (line 108-111);
* `VirusGenealogy.existsV`     — `exists` (line 154-158);
* `VirusGenealogy.get_children`/`get_parents` — lines 116-151 (the C++
  functions return vectors ordered by `shared_ptr` value, i.e. in an
  unspecified order; we return the underlying finite set);
* `VirusGenealogy.getVirus`    — `operator[]` (line 163-173);
* `VirusGenealogy.createSingle` — `create(id, parent_id)` (line 180-196);
* `VirusGenealogy.createMany`  — `create(id, parent_ids)` (line 204-229);
* `VirusGenealogy.connectOp`   — `connect` (line 233-244);
* `VirusGenealogy.removeOp`    — `remove` (line 250-288).

Mutating operations return `Option VirusExc × VirusGenealogy`: `(none, g')`
models normal return with new state `g'`, `(some e, g)` models throwing
exception `e` with the state observable at the throw.  In the source every
throw happens before any mutation, which the definitions reproduce.

Two points of care, both visible below:

* in `remove`, `viruses_copy(viruses)` copies only the top-level map; the
  `shared_ptr` values alias the very same node objects, so the edge
  mutations performed by the cascade act on the one shared heap.  The
  embedding therefore threads a single heap through the cascade and keeps
  two key sets (the original and the working copy), exactly as the source.
* the loop body reads `rem_it->childrens`, a slip of the pen for the member
  `children` declared at line 68 (the only child set a node has); the
  embedding reads the `children` field.

The C++ `while` loop is embedded with explicit fuel (`removeIter`); the
fuel `g.keys.card` is proved sufficient for every valid acyclic state, and
`remove` signals the artificial exception `outOfFuel` when it is not (such
a state is never reachable; successful runs are unaffected).
-/

/-- Payload type: the C++ template parameter `Virus`.  The contract (comment
block at the end of the header) only requires a constructor from an
identifier and a `get_id` accessor, so the payload is exactly an identifier
wrapped in a record. -/
structure Virus where
  id : Nat
deriving DecidableEq, Repr

/-- The C++ `Virus::get_id()` accessor. -/
def Virus.get_id (v : Virus) : Nat := v.id

/-- One `VirusNode` object (lines 64-92): the stored payload and the two
`std::set`s of references, which we keep as sets of identifiers. -/
structure VirusNode where
  virus : Virus
  parents : Finset Nat
  children : Finset Nat
deriving DecidableEq

/-- Heap of node objects, indexed by identifier.  Identifiers outside the
store hold junk that no operation ever exposes. -/
def Heap : Type := Nat → VirusNode

/-- Pointwise update of the heap, modelling mutation of one node object. -/
def updNode (h : Heap) (a : Nat) (n : VirusNode) : Heap :=
  fun x => if x = a then n else h x

/-- The whole container: the root identifier (`stem_id`, line 96), the key
set of the map `viruses` (line 94) and the heap of node objects. -/
structure VirusGenealogy where
  stem_id : Nat
  keys : Finset Nat
  heap : Heap

/-- Exceptions of the header (lines 11-27), plus the fuel artifact of the
embedding (see the header comment; never raised on valid acyclic states). -/
inductive VirusExc where
  | virusNotFound
  | virusAlreadyCreated
  | triedToRemoveStemVirus
  | outOfFuel
deriving DecidableEq, Repr

namespace VirusGenealogy

/-- Constructor (lines 101-105): one node, the stem, with empty edge sets,
its payload built from `stem_id` by the `VirusNode` constructor (line 71). -/
def init (stem : Nat) : VirusGenealogy :=
  ⟨stem, {stem}, updNode (fun _ => ⟨⟨0⟩, ∅, ∅⟩) stem ⟨⟨stem⟩, ∅, ∅⟩⟩

/-- Mirror of `get_stem_id` (lines 108-111). -/
def get_stem_id (g : VirusGenealogy) : Nat := g.stem_id

/-- Mirror of `exists` (lines 154-158). -/
def existsV (g : VirusGenealogy) (id : Nat) : Bool := id ∈ g.keys

/-- Mirror of `get_children` (lines 116-131); `none` models the thrown
`VirusNotFound`.  The C++ function copies the child set into a vector in
`shared_ptr` order; the embedding returns the set of identifiers. -/
def get_children (g : VirusGenealogy) (id : Nat) : Option (Finset Nat) :=
  if id ∈ g.keys then some (g.heap id).children else none

/-- Mirror of `get_parents` (lines 136-151), as for `get_children`. -/
def get_parents (g : VirusGenealogy) (id : Nat) : Option (Finset Nat) :=
  if id ∈ g.keys then some (g.heap id).parents else none

/-- Mirror of `operator[]` (lines 163-173): the stored payload. -/
def getVirus (g : VirusGenealogy) (id : Nat) : Option Virus :=
  if id ∈ g.keys then some (g.heap id).virus else none

/-- Mirror of `create(id, parent_id)` (lines 180-196): check `id` fresh,
check the parent exists, build the node (payload from `id`), `add_parent`,
`add_child`, insert into the map. -/
def createSingle (g : VirusGenealogy) (id pid : Nat) :
    Option VirusExc × VirusGenealogy :=
  if id ∈ g.keys then (some .virusAlreadyCreated, g)
  else if pid ∉ g.keys then (some .virusNotFound, g)
  else
    let h1 := updNode g.heap id ⟨⟨id⟩, {pid}, ∅⟩
    let h2 := updNode h1 pid
      ⟨(h1 pid).virus, (h1 pid).parents, insert id (h1 pid).children⟩
    (none, ⟨g.stem_id, insert id g.keys, h2⟩)

/-- One iteration of the linking loop of `create(id, parent_ids)`
(lines 222-226): `new_virus_ptr->add_parent(parent)` then
`parent->add_child(new_virus_ptr)`. -/
def addParentLink (id : Nat) (h : Heap) (pid : Nat) : Heap :=
  let h1 := updNode h id
    ⟨(h id).virus, insert pid (h id).parents, (h id).children⟩
  updNode h1 pid
    ⟨(h1 pid).virus, (h1 pid).parents, insert id (h1 pid).children⟩

/-- Mirror of `create(id, parent_ids)` (lines 204-229): `VirusAlreadyCreated`
if `id` is present, `VirusNotFound` if the list is empty or some listed
parent is absent (all checks precede every mutation), then the fresh node is
linked to each listed parent in order. -/
def createMany (g : VirusGenealogy) (id : Nat) (pids : List Nat) :
    Option VirusExc × VirusGenealogy :=
  if id ∈ g.keys then (some .virusAlreadyCreated, g)
  else if pids = [] then (some .virusNotFound, g)
  else if ¬ (∀ p ∈ pids, p ∈ g.keys) then (some .virusNotFound, g)
  else
    let h0 := updNode g.heap id ⟨⟨id⟩, ∅, ∅⟩
    (none, ⟨g.stem_id, insert id g.keys, pids.foldl (addParentLink id) h0⟩)

/-- Mirror of `connect` (lines 233-244): `VirusNotFound` if either endpoint
is absent, then `child->add_parent(parent)` and `parent->add_child(child)`. -/
def connectOp (g : VirusGenealogy) (cid pid : Nat) :
    Option VirusExc × VirusGenealogy :=
  if pid ∉ g.keys ∨ cid ∉ g.keys then (some .virusNotFound, g)
  else
    let h1 := updNode g.heap cid
      ⟨(g.heap cid).virus, insert pid (g.heap cid).parents, (g.heap cid).children⟩
    let h2 := updNode h1 pid
      ⟨(h1 pid).virus, (h1 pid).parents, insert cid (h1 pid).children⟩
    (none, ⟨g.stem_id, g.keys, h2⟩)

/-- State of the cascade loop of `remove` (lines 260-285): the FIFO queue
`to_remove` (as a list of identifiers, front first), the working copy
`viruses_copy` of the key set, and the one shared heap of node objects. -/
abbrev RState : Type := List Nat × Finset Nat × Heap

/-- Members of a finite set of identifiers listed in ascending order.  The
C++ loops iterate a `std::set` of `shared_ptr`s in pointer order, which is
unspecified; the embedding fixes the ascending-identifier order. -/
def ascMembers (s : Finset Nat) : List Nat :=
  (List.range (s.sup id + 1)).filter (fun x => decide (x ∈ s))

/-- First inner loop of an iteration (lines 272-274): detach `rem` from the
child set of each of its current parents. -/
def parentFold (rem : Nat) (ps : List Nat) (h : Heap) : Heap :=
  ps.foldl (fun h p =>
    updNode h p ⟨(h p).virus, (h p).parents, (h p).children.erase rem⟩) h

/-- Second inner loop of an iteration (lines 276-282): erase `rem` from each
child's parent set and enqueue children left with no parents (other than the
stem). -/
def childFold (stem rem : Nat) (cs : List Nat) (q : List Nat) (h : Heap) :
    List Nat × Heap :=
  cs.foldl (fun acc c =>
    let h1 := updNode acc.2 c
      ⟨(acc.2 c).virus, (acc.2 c).parents.erase rem, (acc.2 c).children⟩
    (if (acc.2 c).parents.erase rem = ∅ ∧ c ≠ stem
      then acc.1 ++ [c] else acc.1, h1)) (q, h)

/-- One iteration of the `while` loop (lines 266-285).  The parent sets are
iterated in ascending identifier order (the C++ order — by `shared_ptr`
value — is unspecified); `rem_it->childrens` is read as the `children`
member, see the header comment. -/
def removeStep (stem : Nat) (s : RState) : RState :=
  match s with
  | ([], ck, h) => ([], ck, h)
  | (rem :: q, ck, h) =>
    let h1 := parentFold rem (ascMembers (h rem).parents) h
    let qh := childFold stem rem (ascMembers (h1 rem).children) q h1
    (qh.1, ck.erase rem, qh.2)

/-- The `while` loop run for `fuel` iterations (an iteration on an empty
queue does nothing, like the loop guard). -/
def removeIter (stem : Nat) : Nat → RState → RState
  | 0, s => s
  | fuel + 1, s => removeIter stem fuel (removeStep stem s)

/-- Mirror of `remove` (lines 250-288): `VirusNotFound` if absent,
`TriedToRemoveStemVirus` on the stem, otherwise the cascade runs on the
working copy of the key set and the shared heap, and the final
`viruses.swap(viruses_copy)` installs the surviving keys. -/
def removeOp (g : VirusGenealogy) (id : Nat) :
    Option VirusExc × VirusGenealogy :=
  if id ∉ g.keys then (some .virusNotFound, g)
  else if id = g.stem_id then (some .triedToRemoveStemVirus, g)
  else
    let s := removeIter g.stem_id g.keys.card ([id], g.keys, g.heap)
    if s.1 = [] then (none, ⟨g.stem_id, s.2.1, s.2.2⟩)
    else (some .outOfFuel, g)

/-- Observable state if execution stops (by an exception such as
`std::bad_alloc`, or by any other fault) after `k` iterations of the
cascade of `removeOp g id`, before the final swap: the original key set is
still in place, while the heap of shared node objects carries whatever edge
mutations the `k` iterations performed. -/
def removeFaultState (g : VirusGenealogy) (id : Nat) (k : Nat) :
    VirusGenealogy :=
  ⟨g.stem_id, g.keys, (removeIter g.stem_id k ([id], g.keys, g.heap)).2.2⟩

end VirusGenealogy

/-! ### Basic lemmas about the heap embedding -/

namespace VirusGenealogy

theorem updNode_self (h : Heap) (a : Nat) (n : VirusNode) : updNode h a n a = n := by
  simp [updNode]

theorem updNode_ne (h : Heap) (a : Nat) (n : VirusNode) {x : Nat} (hx : x ≠ a) :
    updNode h a n x = h x := by
  simp [updNode, hx]

theorem mem_ascMembers {s : Finset Nat} {x : Nat} : x ∈ ascMembers s ↔ x ∈ s := by
  unfold ascMembers
  simp only [List.mem_filter, List.mem_range, decide_eq_true_eq]
  constructor
  · rintro ⟨-, hx⟩
    exact hx
  · intro hx
    exact ⟨Nat.lt_succ_of_le (Finset.le_sup (f := id) hx), hx⟩

theorem ascMembers_nodup (s : Finset Nat) : (ascMembers s).Nodup :=
  (List.nodup_range _).filter _

/-! ### The invariants of the data structure

`I1` and `I2` are the invariants named in the specification: every non-stem
node has at least one parent, and parent/child references are mirrored.
`Closed` states that every stored reference points into the store, and
`Valid` bundles them together with the presence of the stem. -/

/-- Invariant I1: every node other than the stem has at least one parent. -/
def I1 (g : VirusGenealogy) : Prop :=
  ∀ x ∈ g.keys, x ≠ g.stem_id → (g.heap x).parents ≠ ∅

/-- Invariant I2: `b` is a child of `a` exactly when `a` is a parent of `b`. -/
def I2 (g : VirusGenealogy) : Prop :=
  ∀ a ∈ g.keys, ∀ b ∈ g.keys, (b ∈ (g.heap a).children ↔ a ∈ (g.heap b).parents)

/-- All stored references point to nodes present in the store. -/
def Closed (g : VirusGenealogy) : Prop :=
  ∀ a ∈ g.keys, (g.heap a).parents ⊆ g.keys ∧ (g.heap a).children ⊆ g.keys

/-- Well-formedness package holding in every state the public interface can
produce. -/
def Valid (g : VirusGenealogy) : Prop :=
  g.stem_id ∈ g.keys ∧ Closed g ∧ I1 g ∧ I2 g

instance (g : VirusGenealogy) : Decidable (I1 g) := by
  unfold I1; exact inferInstance

instance (g : VirusGenealogy) : Decidable (I2 g) := by
  unfold I2; exact inferInstance

instance (g : VirusGenealogy) : Decidable (Closed g) := by
  unfold Closed; exact inferInstance

instance (g : VirusGenealogy) : Decidable (Valid g) := by
  unfold Valid; exact inferInstance

/-- States produced from some constructor call by a sequence of successful
public mutating calls. -/
inductive Reaches : VirusGenealogy → Prop
  | init (stem : Nat) : Reaches (init stem)
  | createSingle {g g' : VirusGenealogy} {id pid : Nat} :
      Reaches g → createSingle g id pid = (none, g') → Reaches g'
  | createMany {g g' : VirusGenealogy} {id : Nat} {pids : List Nat} :
      Reaches g → createMany g id pids = (none, g') → Reaches g'
  | connectOp {g g' : VirusGenealogy} {cid pid : Nat} :
      Reaches g → connectOp g cid pid = (none, g') → Reaches g'
  | removeOp {g g' : VirusGenealogy} {id : Nat} :
      Reaches g → removeOp g id = (none, g') → Reaches g'

end VirusGenealogy

/-! ### Characterization of successful calls -/

namespace VirusGenealogy

theorem createSingle_ok {g g' : VirusGenealogy} {id pid : Nat}
    (h : createSingle g id pid = (none, g')) :
    id ∉ g.keys ∧ pid ∈ g.keys ∧ g'.stem_id = g.stem_id ∧
    g'.keys = insert id g.keys ∧
    g'.heap id = ⟨⟨id⟩, {pid}, ∅⟩ ∧
    g'.heap pid = ⟨(g.heap pid).virus, (g.heap pid).parents,
      insert id (g.heap pid).children⟩ ∧
    ∀ x, x ≠ id → x ≠ pid → g'.heap x = g.heap x := by
  unfold createSingle at h
  split at h
  · exact absurd (congrArg Prod.fst h) (by simp)
  · split at h
    next hpid => exact absurd (congrArg Prod.fst h) (by simp)
    next hid hpid =>
      push_neg at hpid
      have hne : pid ≠ id := fun e => hid (e ▸ hpid)
      have hg : g' = ⟨g.stem_id, insert id g.keys, _⟩ := (congrArg Prod.snd h).symm
      subst hg
      refine ⟨hid, hpid, rfl, rfl, ?_, ?_, ?_⟩
      · show updNode _ pid _ id = _
        rw [updNode_ne _ _ _ hne.symm, updNode_self]
      · show updNode _ pid _ pid = _
        rw [updNode_self, updNode_ne _ _ _ hne]
      · intro x hxid hxpid
        show updNode _ pid _ x = _
        rw [updNode_ne _ _ _ hxpid, updNode_ne _ _ _ hxid]

theorem connectOp_ok {g g' : VirusGenealogy} {cid pid : Nat}
    (h : connectOp g cid pid = (none, g')) :
    cid ∈ g.keys ∧ pid ∈ g.keys ∧ g'.stem_id = g.stem_id ∧
    g'.keys = g.keys ∧
    ∀ x, g'.heap x =
      ⟨(g.heap x).virus,
       if x = cid then insert pid (g.heap x).parents else (g.heap x).parents,
       if x = pid then insert cid (g.heap x).children else (g.heap x).children⟩ := by
  unfold connectOp at h
  split at h
  · exact absurd (congrArg Prod.fst h) (by simp)
  next hex =>
    push_neg at hex
    have hg : g' = ⟨g.stem_id, g.keys, _⟩ := (congrArg Prod.snd h).symm
    subst hg
    refine ⟨hex.2, hex.1, rfl, rfl, ?_⟩
    intro x
    show updNode (updNode g.heap cid _) pid _ x = _
    by_cases hxp : x = pid
    · subst hxp
      rw [updNode_self]
      by_cases hxc : x = cid
      · subst hxc
        simp [updNode_self]
      · simp [updNode_ne _ _ _ hxc, hxc]
    · rw [updNode_ne _ _ _ hxp]
      by_cases hxc : x = cid
      · subst hxc
        simp [updNode_self, hxp]
      · simp [updNode_ne _ _ _ hxc, hxc, hxp]

theorem addParentLink_at_id (id : Nat) (h : Heap) {p : Nat} (hp : p ≠ id) :
    addParentLink id h p id =
      ⟨(h id).virus, insert p (h id).parents, (h id).children⟩ := by
  unfold addParentLink
  rw [updNode_ne _ _ _ hp.symm, updNode_self]

theorem addParentLink_at_p (id : Nat) (h : Heap) {p : Nat} (hp : p ≠ id) :
    addParentLink id h p p =
      ⟨(h p).virus, (h p).parents, insert id (h p).children⟩ := by
  unfold addParentLink
  rw [updNode_self, updNode_ne _ _ _ hp]

theorem addParentLink_at_other (id : Nat) (h : Heap) {p x : Nat}
    (hxi : x ≠ id) (hxp : x ≠ p) : addParentLink id h p x = h x := by
  unfold addParentLink
  rw [updNode_ne _ _ _ hxp, updNode_ne _ _ _ hxi]

theorem addParentLink_foldl (id : Nat) (pids : List Nat) (h : Heap)
    (hid : id ∉ pids) (x : Nat) :
    (pids.foldl (addParentLink id) h) x =
      if x = id then
        ⟨(h id).virus, (h id).parents ∪ pids.toFinset, (h id).children⟩
      else if x ∈ pids then
        ⟨(h x).virus, (h x).parents, insert id (h x).children⟩
      else h x := by
  induction pids generalizing h with
  | nil =>
    simp only [List.foldl_nil, List.toFinset_nil, List.not_mem_nil, if_false]
    split
    next he =>
      subst he
      rw [Finset.union_empty]
    next => rfl
  | cons p ps ih =>
    have hpid : p ≠ id := fun e => hid (e ▸ List.mem_cons_self p ps)
    have hid2 : id ∉ ps := fun hm => hid (List.mem_cons_of_mem p hm)
    rw [List.foldl_cons, ih _ hid2]
    by_cases hxi : x = id
    · rw [hxi, if_pos rfl, if_pos rfl, addParentLink_at_id _ h hpid,
        List.toFinset_cons, Finset.insert_union, Finset.union_insert]
    · by_cases hxp : x = p
      · have hxcons : x ∈ p :: ps := by
          rw [hxp]; exact List.mem_cons_self p ps
        by_cases hxps : x ∈ ps
        · rw [if_neg hxi, if_neg hxi, if_pos hxps, if_pos hxcons, hxp,
            addParentLink_at_p _ h hpid, Finset.insert_idem]
        · rw [if_neg hxi, if_neg hxi, if_neg hxps, if_pos hxcons, hxp,
            addParentLink_at_p _ h hpid]
      · have hA := addParentLink_at_other _ h hxi hxp
        by_cases hxps : x ∈ ps
        · rw [if_neg hxi, if_neg hxi, if_pos hxps,
            if_pos (List.mem_cons_of_mem p hxps), hA]
        · rw [if_neg hxi, if_neg hxi, if_neg hxps,
            if_neg (fun hc => (List.mem_cons.mp hc).elim hxp hxps), hA]

theorem createMany_ok {g g' : VirusGenealogy} {id : Nat} {pids : List Nat}
    (h : createMany g id pids = (none, g')) :
    id ∉ g.keys ∧ pids ≠ [] ∧ (∀ p ∈ pids, p ∈ g.keys) ∧
    g'.stem_id = g.stem_id ∧ g'.keys = insert id g.keys ∧
    g'.heap id = ⟨⟨id⟩, pids.toFinset, ∅⟩ ∧
    (∀ x ∈ g.keys, x ∈ pids →
      g'.heap x = ⟨(g.heap x).virus, (g.heap x).parents,
        insert id (g.heap x).children⟩) ∧
    (∀ x, x ≠ id → x ∉ pids → g'.heap x = g.heap x) := by
  unfold createMany at h
  split at h
  · exact absurd (congrArg Prod.fst h) (by simp)
  split at h
  · exact absurd (congrArg Prod.fst h) (by simp)
  split at h
  · exact absurd (congrArg Prod.fst h) (by simp)
  next hid hne hall =>
    push_neg at hall
    have hg : g' = ⟨g.stem_id, insert id g.keys, _⟩ := (congrArg Prod.snd h).symm
    subst hg
    have hidp : id ∉ pids := fun hm => hid (hall id hm)
    refine ⟨hid, hne, hall, rfl, rfl, ?_, ?_, ?_⟩
    · show (pids.foldl (addParentLink id) _) id = _
      rw [addParentLink_foldl id pids _ hidp]
      simp [updNode_self]
    · intro x hxk hxp
      have hxi : x ≠ id := fun e => hid (e ▸ hxk)
      show (pids.foldl (addParentLink id) _) x = _
      rw [addParentLink_foldl id pids _ hidp]
      simp only [if_neg hxi, if_pos hxp]
      rw [updNode_ne _ _ _ hxi]
    · intro x hxi hxp
      show (pids.foldl (addParentLink id) _) x = _
      rw [addParentLink_foldl id pids _ hidp]
      simp only [if_neg hxi, if_neg hxp]
      rw [updNode_ne _ _ _ hxi]

end VirusGenealogy

/-! ### Preservation of the invariants by `init`, `create` and `connect` -/

namespace VirusGenealogy

theorem valid_init (stem : Nat) : Valid (init stem) := by
  have hkeys : (init stem).keys = {stem} := rfl
  have hstem : (init stem).stem_id = stem := rfl
  have hheap : (init stem).heap stem = ⟨⟨stem⟩, ∅, ∅⟩ := by
    simp [init, updNode]
  refine ⟨Finset.mem_singleton_self stem, ?_, ?_, ?_⟩
  · intro a ha
    rw [hkeys, Finset.mem_singleton] at ha
    rw [ha, hheap]
    exact ⟨Finset.empty_subset _, Finset.empty_subset _⟩
  · intro x hx hne
    rw [hkeys, Finset.mem_singleton] at hx
    rw [hstem] at hne
    exact absurd hx hne
  · intro a ha b hb
    rw [hkeys, Finset.mem_singleton] at ha
    rw [hkeys, Finset.mem_singleton] at hb
    rw [ha, hb, hheap]

theorem valid_createSingle {g g' : VirusGenealogy} {id pid : Nat}
    (hv : Valid g) (h : createSingle g id pid = (none, g')) : Valid g' := by
  obtain ⟨hid, hpid, hstem, hkeys, hhid, hhpid, hother⟩ := createSingle_ok h
  obtain ⟨hvstem, hvclosed, hvI1, hvI2⟩ := hv
  have hne : pid ≠ id := fun e => hid (e ▸ hpid)
  have hsne : g.stem_id ≠ id := fun e => hid (e ▸ hvstem)
  -- parent sets are unchanged on the old nodes
  have hpar : ∀ x ∈ g.keys, (g'.heap x).parents = (g.heap x).parents := by
    intro x hx
    by_cases hxp : x = pid
    · rw [hxp, hhpid]
    · rw [hother x (fun e => hid (e ▸ hx)) hxp]
  -- child sets on old nodes gain at most the new id
  have hchld : ∀ x ∈ g.keys, ∀ b, b ≠ id →
      (b ∈ (g'.heap x).children ↔ b ∈ (g.heap x).children) := by
    intro x hx b hb
    by_cases hxp : x = pid
    · rw [hxp, hhpid]
      show b ∈ insert id (g.heap pid).children ↔ _
      rw [Finset.mem_insert]
      exact or_iff_right hb
    · rw [hother x (fun e => hid (e ▸ hx)) hxp]
  constructor
  · rw [hstem, hkeys]
    exact Finset.mem_insert_of_mem hvstem
  constructor
  · intro a ha
    rw [hkeys] at ha
    rw [Finset.mem_insert] at ha
    rcases ha with ha | ha
    · rw [ha, hhid]
      constructor
      · show {pid} ⊆ _
        rw [hkeys]
        exact Finset.singleton_subset_iff.mpr (Finset.mem_insert_of_mem hpid)
      · show (∅ : Finset Nat) ⊆ _
        exact Finset.empty_subset _
    · constructor
      · rw [hpar a ha, hkeys]
        exact (hvclosed a ha).1.trans (Finset.subset_insert _ _)
      · intro b hb
        rw [hkeys]
        by_cases hbi : b = id
        · rw [hbi]
          exact Finset.mem_insert_self _ _
        · rw [hchld a ha b hbi] at hb
          exact Finset.mem_insert_of_mem ((hvclosed a ha).2 hb)
  constructor
  · intro x hx hxs
    rw [hkeys] at hx
    rw [Finset.mem_insert] at hx
    rcases hx with hx | hx
    · rw [hx, hhid]
      show ({pid} : Finset Nat) ≠ ∅
      simp
    · rw [hpar x hx]
      exact hvI1 x hx (fun e => hxs (e.trans hstem.symm))
  · intro a ha b hb
    rw [hkeys, Finset.mem_insert] at ha
    rw [hkeys, Finset.mem_insert] at hb
    rcases ha with ha | ha
    · rcases hb with hb | hb
      · rw [ha, hb, hhid]
        show id ∈ (∅ : Finset Nat) ↔ id ∈ ({pid} : Finset Nat)
        simp [hne.symm]
      · rw [ha, hhid, hpar b hb]
        show b ∈ (∅ : Finset Nat) ↔ id ∈ _
        simp only [Finset.not_mem_empty, false_iff]
        intro hmem
        exact hid ((hvclosed b hb).1 hmem)
    · rcases hb with hb | hb
      · rw [hb, hhid]
        show id ∈ (g'.heap a).children ↔ a ∈ ({pid} : Finset Nat)
        rw [Finset.mem_singleton]
        by_cases hap : a = pid
        · rw [hap, hhpid]
          show id ∈ insert id _ ↔ _
          simp [hap]
        · rw [hother a (fun e => hid (e ▸ ha)) hap]
          simp only [hap, iff_false]
          intro hmem
          exact hid ((hvclosed a ha).2 hmem)
      · have hbi : b ≠ id := fun e => hid (e ▸ hb)
        rw [hchld a ha b hbi, hpar b hb]
        exact hvI2 a ha b hb

theorem valid_connectOp {g g' : VirusGenealogy} {cid pid : Nat}
    (hv : Valid g) (h : connectOp g cid pid = (none, g')) : Valid g' := by
  obtain ⟨hcid, hpid, hstem, hkeys, hh⟩ := connectOp_ok h
  obtain ⟨hvstem, hvclosed, hvI1, hvI2⟩ := hv
  have hpar : ∀ x, (g'.heap x).parents =
      if x = cid then insert pid (g.heap x).parents else (g.heap x).parents := by
    intro x
    rw [hh x]
  have hchl : ∀ x, (g'.heap x).children =
      if x = pid then insert cid (g.heap x).children else (g.heap x).children := by
    intro x
    rw [hh x]
  constructor
  · rw [hstem, hkeys]
    exact hvstem
  constructor
  · intro a ha
    rw [hkeys] at ha
    rw [hkeys, hpar a, hchl a]
    constructor
    · split
      · exact Finset.insert_subset hpid (hvclosed a ha).1
      · exact (hvclosed a ha).1
    · split
      · exact Finset.insert_subset hcid (hvclosed a ha).2
      · exact (hvclosed a ha).2
  constructor
  · intro x hx hxs
    rw [hkeys] at hx
    rw [hpar x]
    split
    · exact Finset.insert_ne_empty _ _
    · exact hvI1 x hx (fun e => hxs (e.trans hstem.symm))
  · intro a ha b hb
    rw [hkeys] at ha
    rw [hkeys] at hb
    rw [hpar b, hchl a]
    by_cases hac : a = pid
    · by_cases hbc : b = cid
      · rw [if_pos hac, if_pos hbc, hac, hbc]
        simp only [Finset.mem_insert, true_or, iff_true]
      · rw [if_pos hac, if_neg hbc]
        show b ∈ insert cid _ ↔ _
        rw [Finset.mem_insert]
        rw [or_iff_right hbc]
        rw [hac] at ha
        exact hvI2 a (hac ▸ ha) b hb
    · by_cases hbc : b = cid
      · rw [if_neg hac, if_pos hbc]
        show _ ↔ a ∈ insert pid _
        rw [Finset.mem_insert]
        rw [or_iff_right hac]
        exact hvI2 a ha b hb
      · rw [if_neg hac, if_neg hbc]
        exact hvI2 a ha b hb

end VirusGenealogy

namespace VirusGenealogy

theorem valid_createMany {g g' : VirusGenealogy} {id : Nat} {pids : List Nat}
    (hv : Valid g) (h : createMany g id pids = (none, g')) : Valid g' := by
  obtain ⟨hid, hne, hall, hstem, hkeys, hhid, hhpids, hother⟩ := createMany_ok h
  obtain ⟨hvstem, hvclosed, hvI1, hvI2⟩ := hv
  have hpar : ∀ x ∈ g.keys, (g'.heap x).parents = (g.heap x).parents := by
    intro x hx
    by_cases hxp : x ∈ pids
    · rw [hhpids x hx hxp]
    · rw [hother x (fun e => hid (e ▸ hx)) hxp]
  have hchld : ∀ x ∈ g.keys, ∀ b, b ≠ id →
      (b ∈ (g'.heap x).children ↔ b ∈ (g.heap x).children) := by
    intro x hx b hb
    by_cases hxp : x ∈ pids
    · rw [hhpids x hx hxp]
      show b ∈ insert id (g.heap x).children ↔ _
      rw [Finset.mem_insert]
      exact or_iff_right hb
    · rw [hother x (fun e => hid (e ▸ hx)) hxp]
  have hchld2 : ∀ x ∈ g.keys, (id ∈ (g'.heap x).children ↔ x ∈ pids) := by
    intro x hx
    by_cases hxp : x ∈ pids
    · rw [hhpids x hx hxp]
      show id ∈ insert id (g.heap x).children ↔ _
      simp [hxp]
    · rw [hother x (fun e => hid (e ▸ hx)) hxp]
      simp only [hxp, iff_false]
      intro hmem
      exact hid ((hvclosed x hx).2 hmem)
  constructor
  · rw [hstem, hkeys]
    exact Finset.mem_insert_of_mem hvstem
  constructor
  · intro a ha
    rw [hkeys] at ha
    rw [Finset.mem_insert] at ha
    rcases ha with ha | ha
    · rw [ha, hhid]
      constructor
      · show pids.toFinset ⊆ _
        intro p hp
        rw [List.mem_toFinset] at hp
        rw [hkeys]
        exact Finset.mem_insert_of_mem (hall p hp)
      · show (∅ : Finset Nat) ⊆ _
        exact Finset.empty_subset _
    · constructor
      · rw [hpar a ha, hkeys]
        exact (hvclosed a ha).1.trans (Finset.subset_insert _ _)
      · intro b hb
        rw [hkeys]
        by_cases hbi : b = id
        · rw [hbi]
          exact Finset.mem_insert_self _ _
        · rw [hchld a ha b hbi] at hb
          exact Finset.mem_insert_of_mem ((hvclosed a ha).2 hb)
  constructor
  · intro x hx hxs
    rw [hkeys] at hx
    rw [Finset.mem_insert] at hx
    rcases hx with hx | hx
    · rw [hx, hhid]
      show pids.toFinset ≠ ∅
      obtain ⟨p, t, hpt⟩ := List.exists_cons_of_ne_nil hne
      rw [hpt, List.toFinset_cons]
      exact Finset.insert_ne_empty _ _
    · rw [hpar x hx]
      exact hvI1 x hx (fun e => hxs (e.trans hstem.symm))
  · intro a ha b hb
    rw [hkeys, Finset.mem_insert] at ha
    rw [hkeys, Finset.mem_insert] at hb
    rcases ha with ha | ha
    · rcases hb with hb | hb
      · rw [ha, hb, hhid]
        show id ∈ (∅ : Finset Nat) ↔ id ∈ pids.toFinset
        simp only [Finset.not_mem_empty, false_iff, List.mem_toFinset]
        exact fun hmem => hid (hall id hmem)
      · rw [ha, hhid, hpar b hb]
        show b ∈ (∅ : Finset Nat) ↔ id ∈ _
        simp only [Finset.not_mem_empty, false_iff]
        intro hmem
        exact hid ((hvclosed b hb).1 hmem)
    · rcases hb with hb | hb
      · rw [hb, hhid, hchld2 a ha]
        show a ∈ pids ↔ a ∈ pids.toFinset
        rw [List.mem_toFinset]
      · have hbi : b ≠ id := fun e => hid (e ▸ hb)
        rw [hchld a ha b hbi, hpar b hb]
        exact hvI2 a ha b hb

end VirusGenealogy

/-! ### Pointwise description of the two inner loops of the cascade -/

namespace VirusGenealogy

theorem sdiff_erase_eq (s t : Finset Nat) (a : Nat) :
    (s \ t).erase a = s \ insert a t := by
  ext x
  simp only [Finset.mem_erase, Finset.mem_sdiff, Finset.mem_insert]
  tauto

theorem sdiff_insert_of_not_mem {s : Finset Nat} {a : Nat} (ha : a ∉ s)
    (t : Finset Nat) : s \ insert a t = s \ t := by
  ext x
  simp only [Finset.mem_sdiff, Finset.mem_insert]
  constructor
  · rintro ⟨hx, hn⟩
    exact ⟨hx, fun hc => hn (Or.inr hc)⟩
  · rintro ⟨hx, hn⟩
    refine ⟨hx, ?_⟩
    rintro (rfl | hc)
    · exact ha hx
    · exact hn hc

theorem keys_sdiff_erase {keys ck : Finset Nat} {rem : Nat} (hr : rem ∈ keys) :
    keys \ ck.erase rem = insert rem (keys \ ck) := by
  ext x
  simp only [Finset.mem_sdiff, Finset.mem_erase, Finset.mem_insert, not_and]
  by_cases hx : x = rem
  · simp [hx, hr]
  · simp [hx]

theorem parentFold_nil (rem : Nat) (h : Heap) : parentFold rem [] h = h := rfl

theorem parentFold_cons (rem p : Nat) (t : List Nat) (h : Heap) :
    parentFold rem (p :: t) h =
      parentFold rem t
        (updNode h p ⟨(h p).virus, (h p).parents, (h p).children.erase rem⟩) :=
  rfl

theorem parentFold_eq (rem : Nat) (ps : List Nat) (h : Heap) (x : Nat)
    (hnd : ps.Nodup) :
    parentFold rem ps h x =
      if x ∈ ps then ⟨(h x).virus, (h x).parents, (h x).children.erase rem⟩
      else h x := by
  induction ps generalizing h with
  | nil => simp [parentFold_nil]
  | cons p t ih =>
    rw [List.nodup_cons] at hnd
    rw [parentFold_cons, ih _ hnd.2]
    by_cases hxp : x = p
    · have hxt : x ∉ t := fun hc => hnd.1 (hxp ▸ hc)
      rw [if_neg hxt, if_pos (hxp ▸ List.mem_cons_self p t), hxp, updNode_self]
    · rw [updNode_ne _ _ _ hxp]
      by_cases hxt : x ∈ t
      · rw [if_pos hxt, if_pos (List.mem_cons_of_mem p hxt)]
      · rw [if_neg hxt, if_neg (fun hc => (List.mem_cons.mp hc).elim hxp hxt)]

theorem childFold_nil (stem rem : Nat) (q : List Nat) (h : Heap) :
    childFold stem rem [] q h = (q, h) := rfl

theorem childFold_cons (stem rem c : Nat) (t : List Nat) (q : List Nat)
    (h : Heap) :
    childFold stem rem (c :: t) q h =
      childFold stem rem t
        (if (h c).parents.erase rem = ∅ ∧ c ≠ stem then q ++ [c] else q)
        (updNode h c ⟨(h c).virus, (h c).parents.erase rem, (h c).children⟩) :=
  rfl

theorem childFold_eq (stem rem : Nat) (cs : List Nat) (q : List Nat) (h : Heap)
    (hnd : cs.Nodup) :
    (∀ x, (childFold stem rem cs q h).2 x =
      if x ∈ cs then ⟨(h x).virus, (h x).parents.erase rem, (h x).children⟩
      else h x) ∧
    (childFold stem rem cs q h).1 =
      q ++ cs.filter
        (fun c => decide ((h c).parents.erase rem = ∅ ∧ c ≠ stem)) := by
  induction cs generalizing q h with
  | nil => simp [childFold_nil]
  | cons c t ih =>
    rw [List.nodup_cons] at hnd
    rw [childFold_cons]
    set h1 := updNode h c ⟨(h c).virus, (h c).parents.erase rem, (h c).children⟩
      with hh1
    obtain ⟨ih1, ih2⟩ := ih
      (if (h c).parents.erase rem = ∅ ∧ c ≠ stem then q ++ [c] else q) h1 hnd.2
    have hfil : t.filter
        (fun x => decide ((h1 x).parents.erase rem = ∅ ∧ x ≠ stem)) =
        t.filter (fun x => decide ((h x).parents.erase rem = ∅ ∧ x ≠ stem)) := by
      apply List.filter_congr
      intro x hx
      have hxc : x ≠ c := fun hc => hnd.1 (hc ▸ hx)
      rw [hh1, updNode_ne _ _ _ hxc]
    constructor
    · intro x
      rw [ih1 x]
      by_cases hxc : x = c
      · have hxt : x ∉ t := fun hc => hnd.1 (hxc ▸ hc)
        rw [if_neg hxt, if_pos (hxc ▸ List.mem_cons_self c t), hxc, hh1,
          updNode_self]
      · rw [hh1, updNode_ne _ _ _ hxc]
        by_cases hxt : x ∈ t
        · rw [if_pos hxt, if_pos (List.mem_cons_of_mem c hxt)]
        · rw [if_neg hxt, if_neg (fun hc => (List.mem_cons.mp hc).elim hxc hxt)]
    · rw [ih2, hfil, List.filter_cons]
      by_cases hcond : (h c).parents.erase rem = ∅ ∧ c ≠ stem
      · rw [if_pos hcond, decide_eq_true hcond, if_pos rfl]
        simp
      · rw [if_neg hcond, decide_eq_false hcond]
        simp

/-- Effect of one iteration of the cascade on the queue and the heap,
bundling the two inner loops. -/
def stepCore (stem rem : Nat) (q : List Nat) (h : Heap) : List Nat × Heap :=
  let h1 := parentFold rem (ascMembers (h rem).parents) h
  childFold stem rem (ascMembers (h1 rem).children) q h1

theorem removeStep_nil (stem : Nat) (ck : Finset Nat) (h : Heap) :
    removeStep stem ([], ck, h) = ([], ck, h) := rfl

theorem removeStep_cons (stem rem : Nat) (q : List Nat) (ck : Finset Nat)
    (h : Heap) :
    removeStep stem (rem :: q, ck, h) =
      ((stepCore stem rem q h).1, ck.erase rem, (stepCore stem rem q h).2) :=
  rfl

end VirusGenealogy

namespace VirusGenealogy

/-- Children of the dequeued node as seen by the second inner loop, i.e.
after the first inner loop possibly erased `rem` from its own child set (the
case of a self-loop). -/
def cascadeKids (rem : Nat) (h : Heap) : Finset Nat :=
  (parentFold rem (ascMembers (h rem).parents) h rem).children

theorem cascadeKids_eq (rem : Nat) (h : Heap) :
    cascadeKids rem h =
      if rem ∈ (h rem).parents then (h rem).children.erase rem
      else (h rem).children := by
  unfold cascadeKids
  rw [parentFold_eq _ _ _ _ (ascMembers_nodup _)]
  by_cases hr : rem ∈ (h rem).parents
  · rw [if_pos (mem_ascMembers.mpr hr), if_pos hr]
  · rw [if_neg (fun hc => hr (mem_ascMembers.mp hc)), if_neg hr]

theorem parentFold_asc_parents (rem : Nat) (h : Heap) (x : Nat) :
    (parentFold rem (ascMembers (h rem).parents) h x).parents =
      (h x).parents := by
  rw [parentFold_eq _ _ _ _ (ascMembers_nodup _)]
  split
  · rfl
  · rfl

theorem parentFold_asc_children (rem : Nat) (h : Heap) (x : Nat) :
    (parentFold rem (ascMembers (h rem).parents) h x).children =
      if x ∈ (h rem).parents then (h x).children.erase rem
      else (h x).children := by
  rw [parentFold_eq _ _ _ _ (ascMembers_nodup _)]
  by_cases hx : x ∈ (h rem).parents
  · rw [if_pos (mem_ascMembers.mpr hx), if_pos hx]
  · rw [if_neg (fun hc => hx (mem_ascMembers.mp hc)), if_neg hx]

theorem stepCore_parents (stem rem : Nat) (q : List Nat) (h : Heap) (x : Nat) :
    ((stepCore stem rem q h).2 x).parents =
      if x ∈ cascadeKids rem h then (h x).parents.erase rem
      else (h x).parents := by
  unfold stepCore
  rw [(childFold_eq _ _ _ _ _ (ascMembers_nodup _)).1 x]
  rw [show (parentFold rem (ascMembers (h rem).parents) h rem).children
      = cascadeKids rem h from rfl]
  by_cases hx : x ∈ cascadeKids rem h
  · rw [if_pos (mem_ascMembers.mpr hx), if_pos hx]
    show (parentFold rem (ascMembers (h rem).parents) h x).parents.erase rem = _
    rw [parentFold_asc_parents]
  · rw [if_neg (fun hc => hx (mem_ascMembers.mp hc)), if_neg hx,
      parentFold_asc_parents]

theorem stepCore_children (stem rem : Nat) (q : List Nat) (h : Heap) (x : Nat) :
    ((stepCore stem rem q h).2 x).children =
      if x ∈ (h rem).parents then (h x).children.erase rem
      else (h x).children := by
  unfold stepCore
  rw [(childFold_eq _ _ _ _ _ (ascMembers_nodup _)).1 x]
  rw [show (parentFold rem (ascMembers (h rem).parents) h rem).children
      = cascadeKids rem h from rfl]
  by_cases hx : x ∈ cascadeKids rem h
  · rw [if_pos (mem_ascMembers.mpr hx)]
    show (parentFold rem (ascMembers (h rem).parents) h x).children = _
    rw [parentFold_asc_children]
  · rw [if_neg (fun hc => hx (mem_ascMembers.mp hc)), parentFold_asc_children]

theorem stepCore_queue (stem rem : Nat) (q : List Nat) (h : Heap) :
    (stepCore stem rem q h).1 =
      q ++ (ascMembers (cascadeKids rem h)).filter
        (fun c => decide ((h c).parents.erase rem = ∅ ∧ c ≠ stem)) := by
  unfold stepCore
  rw [(childFold_eq _ _ _ _ _ (ascMembers_nodup _)).2]
  rw [show (parentFold rem (ascMembers (h rem).parents) h rem).children
      = cascadeKids rem h from rfl]
  congr 1
  apply List.filter_congr
  intro x hx
  rw [parentFold_asc_parents]

end VirusGenealogy

/-! ### The invariant of the cascade loop

The loop state `(q, ck, h)` is related to the pre-call structure `g0`: the
set `D := g0.keys \ ck` of already-processed identifiers has been erased
from the edge sets of every still-live node, queue members are non-stem
keys, and every live non-stem node whose original parents were all
processed is waiting in the queue. -/

namespace VirusGenealogy

structure GInv (g0 : VirusGenealogy) (s : RState) : Prop where
  qKeys : ∀ x ∈ s.1, x ∈ g0.keys ∧ x ≠ g0.stem_id
  ckSub : s.2.1 ⊆ g0.keys
  stemLive : g0.stem_id ∈ s.2.1
  parentsEq : ∀ x ∈ s.2.1,
    (s.2.2 x).parents = (g0.heap x).parents \ (g0.keys \ s.2.1)
  childrenEq : ∀ x ∈ s.2.1,
    (s.2.2 x).children = (g0.heap x).children \ (g0.keys \ s.2.1)
  shrinkP : ∀ x, (s.2.2 x).parents ⊆ (g0.heap x).parents
  shrinkC : ∀ x, (s.2.2 x).children ⊆ (g0.heap x).children
  pending : ∀ x ∈ s.2.1, x ≠ g0.stem_id →
    (g0.heap x).parents ⊆ g0.keys \ s.2.1 → x ∈ s.1

theorem cascadeKids_subset (rem : Nat) (h : Heap) :
    cascadeKids rem h ⊆ (h rem).children := by
  rw [cascadeKids_eq]
  split
  · exact Finset.erase_subset _ _
  · exact Finset.Subset.refl _

theorem mem_cascadeKids {rem x : Nat} (h : Heap) (hx : x ≠ rem) :
    x ∈ cascadeKids rem h ↔ x ∈ (h rem).children := by
  rw [cascadeKids_eq]
  split
  · rw [Finset.mem_erase]
    exact and_iff_right hx
  · exact Iff.rfl

theorem ginv_step {g0 : VirusGenealogy} (hv : Valid g0) {s : RState}
    (hg : GInv g0 s) : GInv g0 (removeStep g0.stem_id s) := by
  obtain ⟨q, ck, h⟩ := s
  obtain ⟨hvstem, hvclosed, hvI1, hvI2⟩ := hv
  cases q with
  | nil =>
    rw [removeStep_nil]
    exact hg
  | cons rem q =>
    obtain ⟨hq, hcksub, hstem, hpE, hcE, hsP, hsC, hpend⟩ := hg
    rw [removeStep_cons]
    have hremkeys : rem ∈ g0.keys := (hq rem (List.mem_cons_self _ _)).1
    have hremstem : rem ≠ g0.stem_id := (hq rem (List.mem_cons_self _ _)).2
    have hq2 : ∀ x, x ∈ (stepCore g0.stem_id rem q h).1 ↔
        x ∈ q ∨ (x ∈ cascadeKids rem h ∧
          (h x).parents.erase rem = ∅ ∧ x ≠ g0.stem_id) := by
      intro x
      rw [stepCore_queue, List.mem_append, List.mem_filter]
      simp only [mem_ascMembers, decide_eq_true_eq]
    have hckkeys : cascadeKids rem h ⊆ g0.keys :=
      (cascadeKids_subset rem h).trans ((hsC rem).trans (hvclosed rem hremkeys).2)
    constructor
    · -- qKeys
      intro x hx
      rw [hq2 x] at hx
      rcases hx with hx | ⟨hck, -, hxs⟩
      · exact hq x (List.mem_cons_of_mem _ hx)
      · exact ⟨hckkeys hck, hxs⟩
    · -- ckSub
      exact (Finset.erase_subset _ _).trans hcksub
    · -- stemLive
      exact Finset.mem_erase.mpr ⟨fun e => hremstem e.symm, hstem⟩
    · -- parentsEq
      intro x hx
      obtain ⟨hxrem, hxck⟩ := Finset.mem_erase.mp hx
      have hxkeys : x ∈ g0.keys := hcksub hxck
      have hxD : x ∉ g0.keys \ ck := fun hc => (Finset.mem_sdiff.mp hc).2 hxck
      rw [stepCore_parents]
      by_cases hrem_ck : rem ∈ ck
      · rw [keys_sdiff_erase hremkeys]
        by_cases hxin : x ∈ cascadeKids rem h
        · rw [if_pos hxin, hpE x hxck, sdiff_erase_eq]
        · rw [if_neg hxin, hpE x hxck]
          have hxC0 : x ∉ (g0.heap rem).children := by
            intro hc
            apply hxin
            rw [mem_cascadeKids h hxrem, hcE rem hrem_ck, Finset.mem_sdiff]
            exact ⟨hc, hxD⟩
          have hremP0 : rem ∉ (g0.heap x).parents :=
            fun hc => hxC0 ((hvI2 rem hremkeys x hxkeys).mpr hc)
          rw [sdiff_insert_of_not_mem hremP0]
      · rw [Finset.erase_eq_of_not_mem hrem_ck]
        have hremD : rem ∈ g0.keys \ ck := Finset.mem_sdiff.mpr ⟨hremkeys, hrem_ck⟩
        have hnor : rem ∉ (h x).parents := by
          rw [hpE x hxck]
          exact fun hc => (Finset.mem_sdiff.mp hc).2 hremD
        split
        · rw [Finset.erase_eq_of_not_mem hnor, hpE x hxck]
        · rw [hpE x hxck]
    · -- childrenEq
      intro x hx
      obtain ⟨hxrem, hxck⟩ := Finset.mem_erase.mp hx
      have hxkeys : x ∈ g0.keys := hcksub hxck
      have hxD : x ∉ g0.keys \ ck := fun hc => (Finset.mem_sdiff.mp hc).2 hxck
      rw [stepCore_children]
      by_cases hrem_ck : rem ∈ ck
      · rw [keys_sdiff_erase hremkeys]
        by_cases hxin : x ∈ (h rem).parents
        · rw [if_pos hxin, hcE x hxck, sdiff_erase_eq]
        · rw [if_neg hxin, hcE x hxck]
          have hxP0 : x ∉ (g0.heap rem).parents := by
            intro hc
            apply hxin
            rw [hpE rem hrem_ck, Finset.mem_sdiff]
            exact ⟨hc, hxD⟩
          have hremC0 : rem ∉ (g0.heap x).children :=
            fun hc => hxP0 ((hvI2 x hxkeys rem hremkeys).mp hc)
          rw [sdiff_insert_of_not_mem hremC0]
      · rw [Finset.erase_eq_of_not_mem hrem_ck]
        have hremD : rem ∈ g0.keys \ ck := Finset.mem_sdiff.mpr ⟨hremkeys, hrem_ck⟩
        have hnor : rem ∉ (h x).children := by
          rw [hcE x hxck]
          exact fun hc => (Finset.mem_sdiff.mp hc).2 hremD
        split
        · rw [Finset.erase_eq_of_not_mem hnor, hcE x hxck]
        · rw [hcE x hxck]
    · -- shrinkP
      intro x
      rw [stepCore_parents]
      split
      · exact (Finset.erase_subset _ _).trans (hsP x)
      · exact hsP x
    · -- shrinkC
      intro x
      rw [stepCore_children]
      split
      · exact (Finset.erase_subset _ _).trans (hsC x)
      · exact hsC x
    · -- pending
      intro x hx hxs hsub
      obtain ⟨hxrem, hxck⟩ := Finset.mem_erase.mp hx
      have hxkeys : x ∈ g0.keys := hcksub hxck
      have hxD : x ∉ g0.keys \ ck := fun hc => (Finset.mem_sdiff.mp hc).2 hxck
      rw [hq2 x]
      by_cases hrem_ck : rem ∈ ck
      · rw [keys_sdiff_erase hremkeys] at hsub
        by_cases hold : (g0.heap x).parents ⊆ g0.keys \ ck
        · have hmem := hpend x hxck hxs hold
          rcases List.mem_cons.mp hmem with he | hmem2
          · exact absurd he hxrem
          · exact Or.inl hmem2
        · right
          obtain ⟨p, hpP, hpD⟩ := Finset.not_subset.mp hold
          have hpins : p ∈ insert rem (g0.keys \ ck) := hsub hpP
          have hprem : p = rem := by
            rcases Finset.mem_insert.mp hpins with he | hc
            · exact he
            · exact absurd hc hpD
          have hremP : rem ∈ (g0.heap x).parents := hprem ▸ hpP
          have hxC0 : x ∈ (g0.heap rem).children :=
            (hvI2 rem hremkeys x hxkeys).mpr hremP
          refine ⟨?_, ?_, hxs⟩
          · rw [mem_cascadeKids h hxrem, hcE rem hrem_ck, Finset.mem_sdiff]
            exact ⟨hxC0, hxD⟩
          · rw [hpE x hxck, sdiff_erase_eq, ← keys_sdiff_erase hremkeys]
            refine Finset.sdiff_eq_empty_iff_subset.mpr ?_
            rw [keys_sdiff_erase hremkeys]
            exact hsub
      · rw [Finset.erase_eq_of_not_mem hrem_ck] at hsub
        have hmem := hpend x hxck hxs hsub
        rcases List.mem_cons.mp hmem with he | hmem2
        · exact absurd he hxrem
        · exact Or.inl hmem2

end VirusGenealogy

namespace VirusGenealogy

theorem ginv_init {g : VirusGenealogy} (hv : Valid g) {id : Nat}
    (hid : id ∈ g.keys) (hids : id ≠ g.stem_id) :
    GInv g ([id], g.keys, g.heap) := by
  obtain ⟨hvstem, hvclosed, hvI1, hvI2⟩ := hv
  constructor
  · intro x hx
    rw [List.mem_singleton] at hx
    rw [hx]
    exact ⟨hid, hids⟩
  · exact Finset.Subset.refl _
  · exact hvstem
  · intro x hx
    rw [Finset.sdiff_self, Finset.sdiff_empty]
  · intro x hx
    rw [Finset.sdiff_self, Finset.sdiff_empty]
  · intro x
    exact Finset.Subset.refl _
  · intro x
    exact Finset.Subset.refl _
  · intro x hx hxs hsub
    rw [Finset.sdiff_self, Finset.subset_empty] at hsub
    exact absurd hsub (hvI1 x hx hxs)

theorem ginv_iter {g0 : VirusGenealogy} (hv : Valid g0) {s : RState}
    (hg : GInv g0 s) (k : Nat) : GInv g0 (removeIter g0.stem_id k s) := by
  induction k generalizing s with
  | zero => exact hg
  | succ k ih => exact ih (ginv_step hv hg)

theorem removeOp_ok {g g' : VirusGenealogy} {id : Nat}
    (h : removeOp g id = (none, g')) :
    id ∈ g.keys ∧ id ≠ g.stem_id ∧
    (removeIter g.stem_id g.keys.card ([id], g.keys, g.heap)).1 = [] ∧
    g' = ⟨g.stem_id,
      (removeIter g.stem_id g.keys.card ([id], g.keys, g.heap)).2.1,
      (removeIter g.stem_id g.keys.card ([id], g.keys, g.heap)).2.2⟩ := by
  unfold removeOp at h
  split at h
  · exact absurd (congrArg Prod.fst h) (by simp)
  next hid =>
    split at h
    · exact absurd (congrArg Prod.fst h) (by simp)
    next hstem =>
      push_neg at hid
      have h2 : (if (removeIter g.stem_id g.keys.card ([id], g.keys, g.heap)).1 = []
          then (none, (⟨g.stem_id,
            (removeIter g.stem_id g.keys.card ([id], g.keys, g.heap)).2.1,
            (removeIter g.stem_id g.keys.card ([id], g.keys, g.heap)).2.2⟩ :
              VirusGenealogy))
          else (some VirusExc.outOfFuel, g)) = (none, g') := h
      split at h2
      next hq => exact ⟨hid, hstem, hq, (congrArg Prod.snd h2).symm⟩
      next => exact absurd (congrArg Prod.fst h2) (by simp)

theorem valid_removeOp {g g' : VirusGenealogy} {id : Nat}
    (hv : Valid g) (h : removeOp g id = (none, g')) : Valid g' := by
  obtain ⟨hid, hstem, hq, hg⟩ := removeOp_ok h
  have hgi : GInv g (removeIter g.stem_id g.keys.card ([id], g.keys, g.heap)) :=
    ginv_iter hv (ginv_init hv hid hstem) _
  obtain ⟨hqk, hcksub, hstemlive, hpE, hcE, hsP, hsC, hpend⟩ := hgi
  obtain ⟨hvstem, hvclosed, hvI1, hvI2⟩ := hv
  set s := removeIter g.stem_id g.keys.card ([id], g.keys, g.heap) with hs
  have hkeys2 : g'.keys = s.2.1 := by rw [hg]
  have hheap2 : g'.heap = s.2.2 := by rw [hg]
  have hstem2 : g'.stem_id = g.stem_id := by rw [hg]
  have hDck : ∀ a ∈ s.2.1, a ∉ g.keys \ s.2.1 :=
    fun a ha hc => (Finset.mem_sdiff.mp hc).2 ha
  refine ⟨?_, ?_, ?_, ?_⟩
  · rw [hstem2, hkeys2]
    exact hstemlive
  · intro a ha
    rw [hkeys2] at ha
    rw [hheap2, hkeys2]
    constructor
    · rw [hpE a ha]
      intro b hb
      obtain ⟨hbP, hbD⟩ := Finset.mem_sdiff.mp hb
      have hbkeys : b ∈ g.keys := (hvclosed a (hcksub ha)).1 hbP
      by_contra hbck
      exact hbD (Finset.mem_sdiff.mpr ⟨hbkeys, hbck⟩)
    · rw [hcE a ha]
      intro b hb
      obtain ⟨hbC, hbD⟩ := Finset.mem_sdiff.mp hb
      have hbkeys : b ∈ g.keys := (hvclosed a (hcksub ha)).2 hbC
      by_contra hbck
      exact hbD (Finset.mem_sdiff.mpr ⟨hbkeys, hbck⟩)
  · intro x hx hxs
    rw [hkeys2] at hx
    rw [hstem2] at hxs
    rw [hheap2, hpE x hx]
    intro hempty
    have hsub : (g.heap x).parents ⊆ g.keys \ s.2.1 :=
      Finset.sdiff_eq_empty_iff_subset.mp hempty
    have hmem := hpend x hx hxs hsub
    rw [hq] at hmem
    exact (List.not_mem_nil x) hmem
  · intro a ha b hb
    rw [hkeys2] at ha
    rw [hkeys2] at hb
    rw [hheap2, hpE b hb, hcE a ha]
    constructor
    · intro hbc
      obtain ⟨hbC, -⟩ := Finset.mem_sdiff.mp hbc
      exact Finset.mem_sdiff.mpr
        ⟨(hvI2 a (hcksub ha) b (hcksub hb)).mp hbC, hDck a ha⟩
    · intro haP
      obtain ⟨haPm, -⟩ := Finset.mem_sdiff.mp haP
      exact Finset.mem_sdiff.mpr
        ⟨(hvI2 a (hcksub ha) b (hcksub hb)).mpr haPm, hDck b hb⟩

theorem reaches_valid {g : VirusGenealogy} (h : Reaches g) : Valid g := by
  induction h with
  | init stem => exact valid_init stem
  | createSingle hr hop ih => exact valid_createSingle ih hop
  | createMany hr hop ih => exact valid_createMany ih hop
  | connectOp hr hop ih => exact valid_connectOp ih hop
  | removeOp hr hop ih => exact valid_removeOp ih hop

end VirusGenealogy

/-! ### Concrete structures used as witnesses

`exG3` is the four-node scenario of the specification: stem `0` (R), node
`1` (A, child of R), node `2` (B, child of A), node `3` (C, child of A and
of R). -/

namespace VirusGenealogy

def exG0 : VirusGenealogy := init 0

def exG1 : VirusGenealogy := (exG0.createSingle 1 0).2

def exG2 : VirusGenealogy := (exG1.createSingle 2 1).2

def exG3 : VirusGenealogy := (exG2.createMany 3 [1, 0]).2

theorem reaches_exG0 : Reaches exG0 := Reaches.init 0

theorem reaches_exG1 : Reaches exG1 :=
  Reaches.createSingle reaches_exG0
    (rfl : createSingle exG0 1 0 = (none, exG1))

theorem reaches_exG2 : Reaches exG2 :=
  Reaches.createSingle reaches_exG1
    (rfl : createSingle exG1 2 1 = (none, exG2))

theorem reaches_exG3 : Reaches exG3 :=
  Reaches.createMany reaches_exG2
    (rfl : createMany exG2 3 [1, 0] = (none, exG3))

end VirusGenealogy

namespace VirusGenealogy

/-- C3: for every sequence of successful operations (create, connect,
remove) starting from construction with a root, after each successful call
every node present in the store other than the root has at least one
parent (invariant I1). -/
theorem claim_C3_invariant_I1 (g : VirusGenealogy) (h : Reaches g) :
    ∀ x ∈ g.keys, x ≠ g.stem_id → (g.heap x).parents ≠ ∅ :=
  (reaches_valid h).2.2.1

theorem claim_C3_invariant_I1_witness :
    Reaches exG3 ∧
    ∀ x ∈ exG3.keys, x ≠ exG3.stem_id → (exG3.heap x).parents ≠ ∅ :=
  ⟨reaches_exG3, claim_C3_invariant_I1 exG3 reaches_exG3⟩

/-- C4: after every successful create, connect or remove call, for every
pair of nodes A and B present in the store, B is in A's child set if and
only if A is in B's parent set (invariant I2, mirrored edges). -/
theorem claim_C4_invariant_I2 (g : VirusGenealogy) (h : Reaches g) :
    ∀ a ∈ g.keys, ∀ b ∈ g.keys,
      (b ∈ (g.heap a).children ↔ a ∈ (g.heap b).parents) :=
  (reaches_valid h).2.2.2

theorem claim_C4_invariant_I2_witness :
    Reaches exG3 ∧
    ∀ a ∈ exG3.keys, ∀ b ∈ exG3.keys,
      (b ∈ (exG3.heap a).children ↔ a ∈ (exG3.heap b).parents) :=
  ⟨reaches_exG3, claim_C4_invariant_I2 exG3 reaches_exG3⟩

/-- C5: a failing `create(id, parentIds)` call fails with
`VirusAlreadyCreated` when `id` is already present, with `VirusNotFound`
when the parent list is empty or contains an absent parent, and in every
failing case the returned state is exactly the state before the call, so
`exists(id)` keeps its prior value and no node's parent or child set is
altered. -/
theorem claim_C5_create_failure_atomic (g : VirusGenealogy) (id : Nat)
    (pids : List Nat) :
    (id ∈ g.keys →
      createMany g id pids = (some .virusAlreadyCreated, g)) ∧
    (id ∉ g.keys → (pids = [] ∨ ∃ p ∈ pids, p ∉ g.keys) →
      createMany g id pids = (some .virusNotFound, g)) := by
  constructor
  · intro hid
    unfold createMany
    rw [if_pos hid]
  · intro hid habs
    unfold createMany
    rw [if_neg hid]
    by_cases hnil : pids = []
    · rw [if_pos hnil]
    · rw [if_neg hnil]
      rcases habs with habs | ⟨p, hp, hpk⟩
      · exact absurd habs hnil
      · rw [if_pos (fun hall => hpk (hall p hp))]

theorem claim_C5_create_failure_atomic_witness :
    (1 ∈ exG1.keys ∧
      createMany exG1 1 [0] = (some .virusAlreadyCreated, exG1)) ∧
    (2 ∉ exG1.keys ∧ (∃ p ∈ [5], p ∉ exG1.keys) ∧
      createMany exG1 2 [5] = (some .virusNotFound, exG1)) :=
  ⟨⟨by decide, (claim_C5_create_failure_atomic exG1 1 [0]).1 (by decide)⟩,
   ⟨by decide, by decide,
    (claim_C5_create_failure_atomic exG1 2 [5]).2 (by decide)
      (Or.inr (by decide))⟩⟩

/-- C6: on every constructed structure, `remove` of the stem identifier
fails with `TriedToRemoveStemVirus` and returns the state unchanged (same
node set, same edges). -/
theorem claim_C6_remove_stem_fails (g : VirusGenealogy) (h : Reaches g) :
    removeOp g g.stem_id = (some .triedToRemoveStemVirus, g) := by
  have hstem : g.stem_id ∈ g.keys := (reaches_valid h).1
  unfold removeOp
  rw [if_neg (fun hc => hc hstem), if_pos rfl]

theorem claim_C6_remove_stem_fails_witness :
    Reaches exG1 ∧
    removeOp exG1 0 = (some .triedToRemoveStemVirus, exG1) :=
  ⟨reaches_exG1, claim_C6_remove_stem_fails exG1 reaches_exG1⟩

end VirusGenealogy

namespace VirusGenealogy

theorem genealogy_ext {g1 g2 : VirusGenealogy} (h1 : g1.stem_id = g2.stem_id)
    (h2 : g1.keys = g2.keys) (h3 : g1.heap = g2.heap) : g1 = g2 := by
  cases g1
  cases g2
  cases h1
  cases h2
  cases h3
  rfl

theorem connectOp_ok_intro {g : VirusGenealogy} {cid pid : Nat}
    (hc : cid ∈ g.keys) (hp : pid ∈ g.keys) :
    connectOp g cid pid = (none, (connectOp g cid pid).2) := by
  unfold connectOp
  rw [if_neg (show ¬(pid ∉ g.keys ∨ cid ∉ g.keys) by
    push_neg
    exact ⟨hp, hc⟩)]

/-- C7: edge insertion is idempotent — when both endpoints exist,
performing `connect(c, p)` twice in a row succeeds both times, the second
call changes nothing (same state), and in particular `parentsOf(c)` and
`childrenOf(p)` after the two calls equal their values after one call. -/
theorem claim_C7_connect_idempotent (g : VirusGenealogy) (cid pid : Nat)
    (hc : cid ∈ g.keys) (hp : pid ∈ g.keys) :
    ∃ g1 g2, connectOp g cid pid = (none, g1) ∧
      connectOp g1 cid pid = (none, g2) ∧ g2 = g1 ∧
      get_parents g2 cid = get_parents g1 cid ∧
      get_children g2 pid = get_children g1 pid := by
  have hok1 := connectOp_ok_intro hc hp
  obtain ⟨-, -, hstem1, hkeys1, hh1⟩ := connectOp_ok hok1
  have hok2 := connectOp_ok_intro (g := (connectOp g cid pid).2)
    (hkeys1.symm ▸ hc) (hkeys1.symm ▸ hp)
  obtain ⟨-, -, hstem2, hkeys2, hh2⟩ := connectOp_ok hok2
  have heq : (connectOp (connectOp g cid pid).2 cid pid).2 =
      (connectOp g cid pid).2 := by
    refine genealogy_ext hstem2 hkeys2 ?_
    funext x
    rw [hh2 x, hh1 x]
    by_cases hxc : x = cid
    · by_cases hxp : x = pid
      · have hcp : cid = pid := hxc.symm.trans hxp
        rw [hxc, ← hcp, if_pos rfl, if_pos rfl, if_pos rfl, if_pos rfl,
          Finset.insert_idem, Finset.insert_idem]
      · rw [hxc, if_pos rfl, if_pos rfl,
          if_neg (fun hcontra => hxp (hxc.trans hcontra)),
          if_neg (fun hcontra => hxp (hxc.trans hcontra)), Finset.insert_idem]
    · by_cases hxp : x = pid
      · rw [hxp, if_pos rfl, if_pos rfl,
          if_neg (fun hcontra => hxc (hxp.trans hcontra)),
          if_neg (fun hcontra => hxc (hxp.trans hcontra)), Finset.insert_idem]
      · rw [if_neg hxc, if_neg hxc, if_neg hxp, if_neg hxp]
  exact ⟨_, _, hok1, hok2, heq, by rw [heq], by rw [heq]⟩

end VirusGenealogy

namespace VirusGenealogy

theorem claim_C7_connect_idempotent_witness :
    (2 ∈ exG3.keys ∧ 0 ∈ exG3.keys) ∧
    (∃ g1 g2, connectOp exG3 2 0 = (none, g1) ∧
      connectOp g1 2 0 = (none, g2) ∧ g2 = g1 ∧
      get_parents g2 2 = get_parents g1 2 ∧
      get_children g2 0 = get_children g1 0) :=
  ⟨⟨by decide, by decide⟩,
   claim_C7_connect_idempotent exG3 2 0 (by decide) (by decide)⟩

theorem createSingle_ok_intro {g : VirusGenealogy} {id pid : Nat}
    (hid : id ∉ g.keys) (hp : pid ∈ g.keys) :
    createSingle g id pid = (none, (createSingle g id pid).2) := by
  unfold createSingle
  rw [if_neg hid, if_neg (not_not_intro hp)]

/-- C8: for every structure, absent identifier `id` and present parent
`pid`, `create(id, pid)` succeeds, after it `exists(id)` is true, and
`operator[]` returns a payload constructed from `id`, whose derivable
identifier (`get_id`) equals `id`. -/
theorem claim_C8_create_then_exists (g : VirusGenealogy) (id pid : Nat)
    (hid : id ∉ g.keys) (hp : pid ∈ g.keys) :
    ∃ g', createSingle g id pid = (none, g') ∧ existsV g' id = true ∧
      getVirus g' id = some ⟨id⟩ ∧
      ∀ v, getVirus g' id = some v → v.get_id = id := by
  have hok := createSingle_ok_intro hid hp
  obtain ⟨-, -, -, hkeys, hhid, -, -⟩ := createSingle_ok hok
  have hmem : id ∈ (createSingle g id pid).2.keys := by
    rw [hkeys]
    exact Finset.mem_insert_self _ _
  refine ⟨_, hok, ?_, ?_, ?_⟩
  · exact decide_eq_true hmem
  · unfold getVirus
    rw [if_pos hmem, hhid]
  · intro v hv
    unfold getVirus at hv
    rw [if_pos hmem, hhid] at hv
    cases hv
    rfl

theorem claim_C8_create_then_exists_witness :
    (7 ∉ exG0.keys ∧ 0 ∈ exG0.keys) ∧
    (∃ g', createSingle exG0 7 0 = (none, g') ∧ existsV g' 7 = true ∧
      getVirus g' 7 = some ⟨7⟩ ∧
      ∀ v, getVirus g' 7 = some v → v.get_id = 7) :=
  ⟨⟨by decide, by decide⟩,
   claim_C8_create_then_exists exG0 7 0 (by decide) (by decide)⟩

/-- C9: parent and child sets never contain duplicates.  In the embedding
(as in the source, where `std::set` keyed by unique `shared_ptr`s holds the
references) the sets are finite sets, so the enumerated parent list of a
node created with a duplicated parent list contains each parent exactly
once, the duplicates having collapsed (`parents = pids.toFinset`), each
listed parent lists the new node exactly once among its children, and
every enumeration of a parent or child set is duplicate-free. -/
theorem claim_C9_no_duplicates (g : VirusGenealogy) (id : Nat)
    (pids : List Nat) {g' : VirusGenealogy}
    (h : createMany g id pids = (none, g')) :
    (g'.heap id).parents = pids.toFinset ∧
    (∀ p ∈ pids, (ascMembers (g'.heap id).parents).count p = 1) ∧
    (∀ p ∈ pids, (ascMembers (g'.heap p).children).count id = 1) ∧
    ∀ x, (ascMembers (g'.heap x).parents).Nodup ∧
      (ascMembers (g'.heap x).children).Nodup := by
  obtain ⟨hid, hne, hall, -, -, hhid, hhpids, -⟩ := createMany_ok h
  have hpar : (g'.heap id).parents = pids.toFinset := by
    rw [hhid]
  refine ⟨hpar, ?_, ?_, ?_⟩
  · intro p hp
    have hmem : p ∈ ascMembers (g'.heap id).parents := by
      rw [mem_ascMembers, hpar, List.mem_toFinset]
      exact hp
    exact List.count_eq_one_of_mem (ascMembers_nodup _) hmem
  · intro p hp
    have hmem : id ∈ ascMembers (g'.heap p).children := by
      rw [mem_ascMembers, hhpids p (hall p hp) hp]
      exact Finset.mem_insert_self _ _
    exact List.count_eq_one_of_mem (ascMembers_nodup _) hmem
  · intro x
    exact ⟨ascMembers_nodup _, ascMembers_nodup _⟩

theorem claim_C9_no_duplicates_witness :
    createMany exG0 1 [0, 0, 0] = (none, (createMany exG0 1 [0, 0, 0]).2) ∧
    ((((createMany exG0 1 [0, 0, 0]).2).heap 1).parents = [0, 0, 0].toFinset ∧
    (∀ p ∈ [0, 0, 0],
      (ascMembers (((createMany exG0 1 [0, 0, 0]).2).heap 1).parents).count p
        = 1) ∧
    (∀ p ∈ [0, 0, 0],
      (ascMembers (((createMany exG0 1 [0, 0, 0]).2).heap p).children).count 1
        = 1) ∧
    ∀ x, (ascMembers (((createMany exG0 1 [0, 0, 0]).2).heap x).parents).Nodup ∧
      (ascMembers (((createMany exG0 1 [0, 0, 0]).2).heap x).children).Nodup) :=
  ⟨rfl, claim_C9_no_duplicates exG0 1 [0, 0, 0] rfl⟩

/-- C10: a node cannot be created as its own parent — when `id` is absent
and occurs in the parent list, `create(id, parentIds)` fails with
`VirusNotFound` (the parent check precedes insertion, and `id` does not
exist yet) and returns the state unchanged. -/
theorem claim_C10_no_self_parent (g : VirusGenealogy) (id : Nat)
    (pids : List Nat) (hid : id ∉ g.keys) (hmem : id ∈ pids) :
    createMany g id pids = (some .virusNotFound, g) := by
  unfold createMany
  rw [if_neg hid, if_neg (List.ne_nil_of_mem hmem),
    if_pos (fun hall => hid (hall id hmem))]

theorem claim_C10_no_self_parent_witness :
    (1 ∉ exG0.keys ∧ 1 ∈ [1, 0]) ∧
    createMany exG0 1 [1, 0] = (some .virusNotFound, exG0) :=
  ⟨⟨by decide, by decide⟩,
   claim_C10_no_self_parent exG0 1 [1, 0] (by decide) (by decide)⟩

end VirusGenealogy

/-! ### Clause C1: what the copy-and-swap in `remove` does and does not
protect

`viruses_copy(viruses)` copies only the top-level map; the `shared_ptr`
values alias the shared node objects, so the per-node edge mutations of the
cascade are visible through the original map even though the swap never
happened.  `removeFaultState g id k` is the state observable when execution
stops after `k` cascade iterations of `remove(id)`, before the final swap
(e.g. `std::bad_alloc` from `to_remove.push`). -/

namespace VirusGenealogy

/-- C1 (counterexample): on the chain `0 ← 1 ← 2`, a fault after the first
cascade iteration of `remove(1)` — the queue still holds `2`, so the
traversal is not complete — leaves the original node set in place but the
original structure is not observationally identical to its pre-call state:
`get_children(0)` has already lost `1`.  This refutes the claim that a
fault before or during the cascade leaves the node set and all parent and
child edges untouched. -/
theorem claim_C1_counterexample :
    (removeIter exG2.stem_id 1 ([1], exG2.keys, exG2.heap)).1 ≠ [] ∧
    (removeFaultState exG2 1 1).keys = exG2.keys ∧
    get_children (removeFaultState exG2 1 1) 0 ≠ get_children exG2 0 := by
  refine ⟨by decide, by decide, by decide⟩

/-- C1 (amended): the validity checks of `remove` precede every mutation,
so a failure before the cascade (absent identifier, or the stem) returns
the state unchanged; and a fault after any number `k` of cascade
iterations leaves the top-level node set (and the stem identifier)
unchanged, because the cascade works on the copied map and the swap has
not happened — but, as the counterexample shows, parent/child edges of the
shared node objects may already have been mutated. -/
theorem claim_C1_amended (g : VirusGenealogy) (id : Nat) (k : Nat) :
    (id ∉ g.keys → removeOp g id = (some .virusNotFound, g)) ∧
    (id ∈ g.keys → id = g.stem_id →
      removeOp g id = (some .triedToRemoveStemVirus, g)) ∧
    (removeFaultState g id k).keys = g.keys ∧
    (removeFaultState g id k).stem_id = g.stem_id := by
  refine ⟨?_, ?_, rfl, rfl⟩
  · intro hid
    unfold removeOp
    rw [if_pos hid]
  · intro hid hstem
    unfold removeOp
    rw [if_neg (not_not_intro hid), if_pos hstem]

theorem claim_C1_amended_witness :
    (9 ∉ exG2.keys ∧ removeOp exG2 9 = (some .virusNotFound, exG2)) ∧
    (0 ∈ exG2.keys ∧ removeOp exG2 0 = (some .triedToRemoveStemVirus, exG2)) ∧
    (removeFaultState exG2 1 1).keys = exG2.keys :=
  ⟨⟨by decide, (claim_C1_amended exG2 9 1).1 (by decide)⟩,
   ⟨by decide, (claim_C1_amended exG2 0 1).2.1 (by decide) rfl⟩,
   (claim_C1_amended exG2 1 1).2.2.1⟩

end VirusGenealogy

/-! ### Reachability

`ReachAvoid g avoid x` says that `x` is reachable from the stem along
child edges of `g` by a path that never visits `avoid`: exactly the nodes
that survive `remove(avoid)`.  `ReachFrom g src x` says that `x` is `src`
itself or a descendant of `src`. -/

namespace VirusGenealogy

inductive ReachAvoid (g : VirusGenealogy) (avoid : Nat) : Nat → Prop
  | stem : g.stem_id ≠ avoid → ReachAvoid g avoid g.stem_id
  | step (a b : Nat) : ReachAvoid g avoid a → a ∈ g.keys →
      b ∈ (g.heap a).children → b ≠ avoid → ReachAvoid g avoid b

inductive ReachFrom (g : VirusGenealogy) (src : Nat) : Nat → Prop
  | refl : ReachFrom g src src
  | step (a b : Nat) : ReachFrom g src a → a ∈ g.keys →
      b ∈ (g.heap a).children → ReachFrom g src b

theorem reachAvoid_ne (g : VirusGenealogy) (avoid : Nat) :
    ∀ x, ReachAvoid g avoid x → x ≠ avoid := by
  intro x h
  cases h with
  | stem hne => exact hne
  | step a b ha hak hb hbne => exact hbne

theorem not_reachAvoid_self (g : VirusGenealogy) (avoid : Nat) :
    ¬ ReachAvoid g avoid avoid :=
  fun h => reachAvoid_ne g avoid avoid h rfl

theorem reachAvoid_mem {g : VirusGenealogy} (hv : Valid g) {avoid x : Nat}
    (h : ReachAvoid g avoid x) : x ∈ g.keys := by
  obtain ⟨hvstem, hvclosed, -, -⟩ := hv
  induction h with
  | stem hne => exact hvstem
  | step a b ha hak hb hbne ih => exact (hvclosed a hak).2 hb

theorem no_self_edge {g : VirusGenealogy} {rank : Nat → Nat}
    (hrank : ∀ a ∈ g.keys, ∀ b ∈ g.keys, b ∈ (g.heap a).children →
      rank a < rank b)
    {a : Nat} (ha : a ∈ g.keys) : a ∉ (g.heap a).children :=
  fun hc => lt_irrefl _ (hrank a ha a ha hc)

/-- Every present node whose rank does not exceed the rank of `id` (other
than `id` itself) is reachable avoiding `id`: paths can be built from the
stem downward, and all intermediate nodes have strictly smaller rank, so
they can never be `id`. -/
theorem reachAvoid_of_rank_le {g : VirusGenealogy} {id : Nat}
    {rank : Nat → Nat} (hv : Valid g)
    (hrank : ∀ a ∈ g.keys, ∀ b ∈ g.keys, b ∈ (g.heap a).children →
      rank a < rank b)
    (hids : id ≠ g.stem_id) :
    ∀ n, ∀ x ∈ g.keys, rank x = n → x ≠ id → rank x ≤ rank id →
      ReachAvoid g id x := by
  obtain ⟨hvstem, hvclosed, hvI1, hvI2⟩ := hv
  intro n
  induction n using Nat.strong_induction_on with
  | _ n ih =>
    intro x hx hxn hxid hxle
    by_cases hxs : x = g.stem_id
    · rw [hxs]
      exact ReachAvoid.stem (fun e => hids e.symm)
    · obtain ⟨p, hp⟩ :=
        Finset.nonempty_iff_ne_empty.mpr (hvI1 x hx hxs)
      have hpk : p ∈ g.keys := (hvclosed x hx).1 hp
      have hchild : x ∈ (g.heap p).children := (hvI2 p hpk x hx).mpr hp
      have hplt : rank p < rank x := hrank p hpk x hx hchild
      have hpltid : rank p < rank id := lt_of_lt_of_le hplt hxle
      have hpid : p ≠ id := by
        intro e
        rw [e] at hpltid
        exact lt_irrefl _ hpltid
      have hreach : ReachAvoid g id p :=
        ih (rank p) (hxn ▸ hplt) p hpk rfl hpid (le_of_lt hpltid)
      exact ReachAvoid.step p x hreach hpk hchild hxid

/-- Every parent of `id` survives `remove(id)`: a path to a parent of `id`
cannot pass through `id` in a DAG. -/
theorem parents_of_id_reach {g : VirusGenealogy} {id : Nat}
    {rank : Nat → Nat} (hv : Valid g)
    (hrank : ∀ a ∈ g.keys, ∀ b ∈ g.keys, b ∈ (g.heap a).children →
      rank a < rank b)
    (hid : id ∈ g.keys) (hids : id ≠ g.stem_id) :
    ∀ p ∈ (g.heap id).parents, ReachAvoid g id p := by
  intro p hp
  obtain ⟨hvstem, hvclosed, hvI1, hvI2⟩ := hv
  have hpk : p ∈ g.keys := (hvclosed id hid).1 hp
  have hchild : id ∈ (g.heap p).children := (hvI2 p hpk id hid).mpr hp
  have hplt : rank p < rank id := hrank p hpk id hid hchild
  have hpid : p ≠ id := by
    intro e
    rw [e] at hplt
    exact lt_irrefl _ hplt
  exact reachAvoid_of_rank_le ⟨hvstem, hvclosed, hvI1, hvI2⟩ hrank hids
    (rank p) p hpk rfl hpid (le_of_lt hplt)

/-- Parents of an unreachable non-`id` node are unreachable. -/
theorem parents_unreach {g : VirusGenealogy} {id x : Nat} (hv : Valid g)
    (hx : x ∈ g.keys) (hxid : x ≠ id) (hxr : ¬ ReachAvoid g id x) :
    ∀ p ∈ (g.heap x).parents, ¬ ReachAvoid g id p := by
  intro p hp hr
  obtain ⟨hvstem, hvclosed, hvI1, hvI2⟩ := hv
  have hpk : p ∈ g.keys := reachAvoid_mem ⟨hvstem, hvclosed, hvI1, hvI2⟩ hr
  have hchild : x ∈ (g.heap p).children := (hvI2 p hpk x hx).mpr hp
  exact hxr (ReachAvoid.step p x hr hpk hchild hxid)

/-- A non-stem, non-`id` node all of whose parents are unreachable is
itself unreachable. -/
theorem unreach_of_parents_unreach {g : VirusGenealogy} {id x : Nat}
    (hv : Valid g) (hx : x ∈ g.keys) (hxs : x ≠ g.stem_id) (hxid : x ≠ id)
    (hpar : ∀ p ∈ (g.heap x).parents, ¬ ReachAvoid g id p) :
    ¬ ReachAvoid g id x := by
  intro hr
  obtain ⟨hvstem, hvclosed, hvI1, hvI2⟩ := hv
  cases hr with
  | stem hne => exact hxs rfl
  | step a b ha hak hb hbne =>
    have hpmem : a ∈ (g.heap x).parents := (hvI2 a hak x hx).mp hb
    exact hpar a hpmem ha

end VirusGenealogy

/-! ### The additional cascade invariant available on acyclic structures -/

namespace VirusGenealogy

structure RInvX (g0 : VirusGenealogy) (id : Nat) (s : RState) : Prop where
  dUnreach : ∀ x ∈ g0.keys, x ∉ s.2.1 → ¬ ReachAvoid g0 id x
  qSound : ∀ x ∈ s.1, x ∈ s.2.1 ∧
    (x = id ∨ (x ≠ id ∧ (g0.heap x).parents ⊆ g0.keys \ s.2.1))
  qNodup : s.1.Nodup
  idDone : id ∈ s.1 ∨ id ∉ s.2.1

theorem rinvx_step {g0 : VirusGenealogy} {id : Nat} {rank : Nat → Nat}
    (hv : Valid g0)
    (hrank : ∀ a ∈ g0.keys, ∀ b ∈ g0.keys, b ∈ (g0.heap a).children →
      rank a < rank b)
    (hid : id ∈ g0.keys) (hids : id ≠ g0.stem_id)
    {s : RState} (hg : GInv g0 s) (hx : RInvX g0 id s) :
    RInvX g0 id (removeStep g0.stem_id s) := by
  obtain ⟨q0, ck, h⟩ := s
  cases q0 with
  | nil =>
    rw [removeStep_nil]
    exact hx
  | cons rem q =>
    obtain ⟨hqk, hcksub, hstem, hpE, hcE, hsP, hsC, hpend⟩ := hg
    obtain ⟨hdu, hqs, hnd, hidd⟩ := hx
    have hrem := hqs rem (List.mem_cons_self _ _)
    obtain ⟨hremck, hremdisj⟩ := hrem
    have hremkeys : rem ∈ g0.keys := (hqk rem (List.mem_cons_self _ _)).1
    have hremstem : rem ≠ g0.stem_id := (hqk rem (List.mem_cons_self _ _)).2
    have hDrem : rem ∉ g0.keys \ ck :=
      fun hc => (Finset.mem_sdiff.mp hc).2 hremck
    have hrem_unreach : ¬ ReachAvoid g0 id rem := by
      rcases hremdisj with he | ⟨hneid, hsub⟩
      · rw [he]
        exact not_reachAvoid_self g0 id
      · refine unreach_of_parents_unreach hv hremkeys hremstem hneid ?_
        intro p hp
        have hpD := hsub hp
        exact hdu p (Finset.mem_sdiff.mp hpD).1 (Finset.mem_sdiff.mp hpD).2
    rw [removeStep_cons]
    have hq2 : ∀ x, x ∈ (stepCore g0.stem_id rem q h).1 ↔
        x ∈ q ∨ (x ∈ cascadeKids rem h ∧
          (h x).parents.erase rem = ∅ ∧ x ≠ g0.stem_id) := by
      intro x
      rw [stepCore_queue, List.mem_append, List.mem_filter]
      simp only [mem_ascMembers, decide_eq_true_eq]
    have hpush : ∀ c, c ∈ cascadeKids rem h →
        (h c).parents.erase rem = ∅ → c ≠ g0.stem_id →
        c ∈ ck.erase rem ∧ c ≠ id ∧
          (g0.heap c).parents ⊆ g0.keys \ ck.erase rem := by
      intro c hcK hcP hcS
      have hcC0 : c ∈ (g0.heap rem).children :=
        hsC rem (cascadeKids_subset rem h hcK)
      have hckeys : c ∈ g0.keys := (hv.2.1 rem hremkeys).2 hcC0
      have hcrem : c ≠ rem := by
        intro e
        exact no_self_edge hrank hremkeys (e ▸ hcC0)
      have hcck : c ∈ ck := by
        have hm : c ∈ (h rem).children := cascadeKids_subset rem h hcK
        rw [hcE rem hremck] at hm
        have hnm := (Finset.mem_sdiff.mp hm).2
        by_contra hcontra
        exact hnm (Finset.mem_sdiff.mpr ⟨hckeys, hcontra⟩)
      have hsubD : (g0.heap c).parents ⊆ g0.keys \ ck.erase rem := by
        have hpeq : (h c).parents = (g0.heap c).parents \ (g0.keys \ ck) :=
          hpE c hcck
        rw [hpeq, sdiff_erase_eq] at hcP
        rw [keys_sdiff_erase hremkeys]
        exact Finset.sdiff_eq_empty_iff_subset.mp hcP
      have hcid : c ≠ id := by
        intro e
        obtain ⟨p, hp⟩ :=
          Finset.nonempty_iff_ne_empty.mpr (hv.2.2.1 id hid hids)
        have hpD : p ∈ g0.keys \ ck.erase rem := hsubD (e ▸ hp)
        rw [keys_sdiff_erase hremkeys] at hpD
        have hpreach : ReachAvoid g0 id p :=
          parents_of_id_reach hv hrank hid hids p hp
        rcases Finset.mem_insert.mp hpD with he2 | hpD2
        · rw [he2] at hpreach
          exact hrem_unreach hpreach
        · exact hdu p (Finset.mem_sdiff.mp hpD2).1
            (Finset.mem_sdiff.mp hpD2).2 hpreach
      exact ⟨Finset.mem_erase.mpr ⟨hcrem, hcck⟩, hcid, hsubD⟩
    constructor
    · -- dUnreach
      intro x hxkeys hxck
      by_cases hxrem : x = rem
      · rw [hxrem]
        exact hrem_unreach
      · refine hdu x hxkeys ?_
        intro hxckold
        exact hxck (Finset.mem_erase.mpr ⟨hxrem, hxckold⟩)
    · -- qSound
      intro x hxq
      rw [hq2 x] at hxq
      rcases hxq with hxq | ⟨hcK, hcP, hcS⟩
      · have hold := hqs x (List.mem_cons_of_mem _ hxq)
        have hxrem : x ≠ rem := by
          intro e
          rw [List.nodup_cons] at hnd
          exact hnd.1 (e ▸ hxq)
        refine ⟨Finset.mem_erase.mpr ⟨hxrem, hold.1⟩, ?_⟩
        rcases hold.2 with he | ⟨hne, hsub⟩
        · exact Or.inl he
        · refine Or.inr ⟨hne, hsub.trans ?_⟩
          intro a ha
          rw [keys_sdiff_erase hremkeys]
          exact Finset.mem_insert_of_mem ha
      · obtain ⟨hc1, hc2, hc3⟩ := hpush x hcK hcP hcS
        exact ⟨hc1, Or.inr ⟨hc2, hc3⟩⟩
    · -- qNodup
      show (stepCore g0.stem_id rem q h).1.Nodup
      rw [stepCore_queue]
      refine List.Nodup.append ?_ ?_ ?_
      · exact (List.nodup_cons.mp hnd).2
      · exact (ascMembers_nodup _).filter _
      · intro a haq hafil
        rw [List.mem_filter] at hafil
        obtain ⟨haK, hcond⟩ := hafil
        rw [mem_ascMembers] at haK
        rw [decide_eq_true_eq] at hcond
        obtain ⟨hc1, hc2, hc3⟩ := hpush a haK hcond.1 hcond.2
        have hold := hqs a (List.mem_cons_of_mem _ haq)
        rcases hold.2 with he | ⟨hne, hsub⟩
        · exact hc2 he
        · have haC0 : a ∈ (g0.heap rem).children :=
            hsC rem (cascadeKids_subset rem h haK)
          have hakeys : a ∈ g0.keys := (hv.2.1 rem hremkeys).2 haC0
          have hremPa : rem ∈ (g0.heap a).parents :=
            (hv.2.2.2 rem hremkeys a hakeys).mp haC0
          exact hDrem (hsub hremPa)
    · -- idDone
      rcases hidd with hq0 | hnck
      · rcases List.mem_cons.mp hq0 with he | hq1
        · right
          intro hc
          exact (Finset.mem_erase.mp hc).1 he
        · left
          rw [hq2 id]
          exact Or.inl hq1
      · right
        exact fun hc => hnck (Finset.mem_erase.mp hc).2

theorem rinvx_iter {g0 : VirusGenealogy} {id : Nat} {rank : Nat → Nat}
    (hv : Valid g0)
    (hrank : ∀ a ∈ g0.keys, ∀ b ∈ g0.keys, b ∈ (g0.heap a).children →
      rank a < rank b)
    (hid : id ∈ g0.keys) (hids : id ≠ g0.stem_id)
    {s : RState} (hg : GInv g0 s) (hx : RInvX g0 id s) (k : Nat) :
    RInvX g0 id (removeIter g0.stem_id k s) := by
  induction k generalizing s with
  | zero => exact hx
  | succ k ih =>
    exact ih (ginv_step hv hg) (rinvx_step hv hrank hid hids hg hx)

theorem rinvx_init {g : VirusGenealogy} {id : Nat}
    (hid : id ∈ g.keys) :
    RInvX g id ([id], g.keys, g.heap) := by
  constructor
  · intro x hxkeys hxck
    exact absurd hxkeys hxck
  · intro x hx
    rw [List.mem_singleton] at hx
    rw [hx]
    exact ⟨hid, Or.inl rfl⟩
  · exact List.nodup_singleton _
  · left
    exact List.mem_singleton_self _

end VirusGenealogy

namespace VirusGenealogy

theorem removeIter_of_empty (stem : Nat) (ck : Finset Nat) (h : Heap)
    (k : Nat) : removeIter stem k ([], ck, h) = ([], ck, h) := by
  induction k with
  | zero => rfl
  | succ k ih =>
    show removeIter stem k (removeStep stem ([], ck, h)) = _
    rw [removeStep_nil]
    exact ih

/-- Each iteration with a non-empty queue removes one element of the
working key set, so after `card` iterations the queue must be empty. -/
theorem cascade_bound {g0 : VirusGenealogy} {id : Nat} {rank : Nat → Nat}
    (hv : Valid g0)
    (hrank : ∀ a ∈ g0.keys, ∀ b ∈ g0.keys, b ∈ (g0.heap a).children →
      rank a < rank b)
    (hid : id ∈ g0.keys) (hids : id ≠ g0.stem_id) :
    ∀ k, ∀ s : RState, GInv g0 s → RInvX g0 id s →
      ((removeIter g0.stem_id k s).1 = [] ∨
        (removeIter g0.stem_id k s).2.1.card + k ≤ s.2.1.card) := by
  intro k
  induction k with
  | zero =>
    intro s hg hx
    right
    show s.2.1.card + 0 ≤ s.2.1.card
    omega
  | succ k ih =>
    intro s hg hx
    obtain ⟨q, ck, h⟩ := s
    cases q with
    | nil =>
      left
      show (removeIter g0.stem_id (k + 1) ([], ck, h)).1 = []
      rw [removeIter_of_empty]
    | cons rem q =>
      have hrem_ck : rem ∈ ck := (hx.qSound rem (List.mem_cons_self _ _)).1
      have hg2 := ginv_step hv hg
      have hx2 := rinvx_step hv hrank hid hids hg hx
      have hstep : removeIter g0.stem_id (k + 1) (rem :: q, ck, h)
          = removeIter g0.stem_id k
              (removeStep g0.stem_id (rem :: q, ck, h)) := rfl
      rcases ih _ hg2 hx2 with hl | hr
      · left
        rw [hstep]
        exact hl
      · right
        rw [hstep]
        have hck : (removeStep g0.stem_id (rem :: q, ck, h)).2.1
            = ck.erase rem := by
          rw [removeStep_cons]
        rw [hck] at hr
        have hcard : (ck.erase rem).card = ck.card - 1 :=
          Finset.card_erase_of_mem hrem_ck
        have hpos : 1 ≤ ck.card := Finset.card_pos.mpr ⟨rem, hrem_ck⟩
        show (removeIter g0.stem_id k
          (removeStep g0.stem_id (rem :: q, ck, h))).2.1.card + (k + 1)
            ≤ ck.card
        omega

theorem cascade_terminates {g0 : VirusGenealogy} {id : Nat}
    {rank : Nat → Nat} (hv : Valid g0)
    (hrank : ∀ a ∈ g0.keys, ∀ b ∈ g0.keys, b ∈ (g0.heap a).children →
      rank a < rank b)
    (hid : id ∈ g0.keys) (hids : id ≠ g0.stem_id) :
    (removeIter g0.stem_id g0.keys.card ([id], g0.keys, g0.heap)).1 = [] := by
  rcases cascade_bound hv hrank hid hids g0.keys.card
      ([id], g0.keys, g0.heap) (ginv_init hv hid hids) (rinvx_init hid)
    with hl | hr
  · exact hl
  · exfalso
    have hgi := ginv_iter hv (ginv_init hv hid hids) g0.keys.card
    have hstem := hgi.stemLive
    have hpos : 0 <
        (removeIter g0.stem_id g0.keys.card
          ([id], g0.keys, g0.heap)).2.1.card :=
      Finset.card_pos.mpr ⟨_, hstem⟩
    have hck : (([id], g0.keys, g0.heap) : RState).2.1.card = g0.keys.card :=
      rfl
    omega

end VirusGenealogy

namespace VirusGenealogy

/-- Completeness of the cut: when the queue has drained, every node that is
unreachable without `id` has been erased from the working key set (by
strong induction on a topological rank: all parents of such a node are
unreachable, hence erased first, so the node was enqueued and processed). -/
theorem unreach_removed {g : VirusGenealogy} {id : Nat} {rank : Nat → Nat}
    (hv : Valid g)
    (hrank : ∀ a ∈ g.keys, ∀ b ∈ g.keys, b ∈ (g.heap a).children →
      rank a < rank b)
    (hids : id ≠ g.stem_id)
    {s : RState} (hg : GInv g s) (hx : RInvX g id s) (hq : s.1 = []) :
    ∀ n, ∀ x ∈ g.keys, rank x = n → ¬ ReachAvoid g id x → x ∉ s.2.1 := by
  intro n
  induction n using Nat.strong_induction_on with
  | _ n ih =>
    intro x hxkeys hxn hxr hxck
    have hxs : x ≠ g.stem_id := by
      intro e
      refine hxr ?_
      rw [e]
      exact ReachAvoid.stem (fun e2 => hids e2.symm)
    have hxid : x ≠ id := by
      intro e
      rcases hx.idDone with hq0 | hnck
      · rw [hq] at hq0
        exact List.not_mem_nil id hq0
      · exact hnck (e ▸ hxck)
    have hsub : (g.heap x).parents ⊆ g.keys \ s.2.1 := by
      intro p hp
      have hpk : p ∈ g.keys := (hv.2.1 x hxkeys).1 hp
      have hpunreach := parents_unreach hv hxkeys hxid hxr p hp
      have hchild : x ∈ (g.heap p).children :=
        (hv.2.2.2 p hpk x hxkeys).mpr hp
      have hplt : rank p < rank x := hrank p hpk x hxkeys hchild
      have hpck : p ∉ s.2.1 := ih (rank p) (hxn ▸ hplt) p hpk rfl hpunreach
      exact Finset.mem_sdiff.mpr ⟨hpk, hpck⟩
    have hmem := hg.pending x hxck hxs hsub
    rw [hq] at hmem
    exact List.not_mem_nil x hmem

/-- Every node unreachable without `id` is `id` itself or a descendant of
`id`. -/
theorem unreach_desc {g : VirusGenealogy} {id : Nat} {rank : Nat → Nat}
    (hv : Valid g)
    (hrank : ∀ a ∈ g.keys, ∀ b ∈ g.keys, b ∈ (g.heap a).children →
      rank a < rank b)
    (hids : id ≠ g.stem_id) :
    ∀ n, ∀ x ∈ g.keys, rank x = n → ¬ ReachAvoid g id x →
      ReachFrom g id x := by
  intro n
  induction n using Nat.strong_induction_on with
  | _ n ih =>
    intro x hx hxn hxr
    by_cases hxid : x = id
    · rw [hxid]
      exact ReachFrom.refl
    · have hxs : x ≠ g.stem_id := by
        intro e
        refine hxr ?_
        rw [e]
        exact ReachAvoid.stem (fun e2 => hids e2.symm)
      obtain ⟨p, hp⟩ :=
        Finset.nonempty_iff_ne_empty.mpr (hv.2.2.1 x hx hxs)
      have hpk : p ∈ g.keys := (hv.2.1 x hx).1 hp
      have hchild : x ∈ (g.heap p).children := (hv.2.2.2 p hpk x hx).mpr hp
      have hplt : rank p < rank x := hrank p hpk x hx hchild
      have hpunreach : ¬ ReachAvoid g id p :=
        parents_unreach hv hx hxid hxr p hp
      have hpdesc : ReachFrom g id p :=
        ih (rank p) (hxn ▸ hplt) p hpk rfl hpunreach
      exact ReachFrom.step p x hpdesc hpk hchild

/-- C2: on every valid structure whose graph is a DAG (witnessed by a
topological rank increasing along parent-to-child edges), for every
present non-root `id`, `remove(id)` succeeds and erases exactly `id` and
the descendants of `id` that become unreachable from the root: a node
survives if and only if it is reachable from the stem by a path avoiding
`id`, every erased node is `id` or one of its descendants, the root
survives, and every surviving node keeps exactly its surviving parents and
children.  (Validity holds for every constructed structure by
`reaches_valid`.) -/
theorem claim_C2_remove_cascade (g : VirusGenealogy) (id : Nat)
    (rank : Nat → Nat) (hv : Valid g)
    (hrank : ∀ a ∈ g.keys, ∀ b ∈ g.keys, b ∈ (g.heap a).children →
      rank a < rank b)
    (hid : id ∈ g.keys) (hids : id ≠ g.stem_id) :
    ∃ g', removeOp g id = (none, g') ∧ g'.stem_id = g.stem_id ∧
      (∀ x, x ∈ g'.keys ↔ x ∈ g.keys ∧ ReachAvoid g id x) ∧
      id ∉ g'.keys ∧ g.stem_id ∈ g'.keys ∧
      (∀ x ∈ g.keys, x ∉ g'.keys → ReachFrom g id x) ∧
      (∀ x ∈ g'.keys,
        (g'.heap x).parents = (g.heap x).parents.filter (· ∈ g'.keys) ∧
        (g'.heap x).children = (g.heap x).children.filter (· ∈ g'.keys)) := by
  have hq := cascade_terminates hv hrank hid hids
  have hgi := ginv_iter hv (ginv_init hv hid hids) g.keys.card
  have hxi := rinvx_iter hv hrank hid hids (ginv_init hv hid hids)
    (rinvx_init hid) g.keys.card
  set s := removeIter g.stem_id g.keys.card ([id], g.keys, g.heap) with hs
  have hok : removeOp g id = (none, ⟨g.stem_id, s.2.1, s.2.2⟩) := by
    unfold removeOp
    rw [if_neg (not_not_intro hid), if_neg hids]
    show (if s.1 = []
      then (none, (⟨g.stem_id, s.2.1, s.2.2⟩ : VirusGenealogy))
      else (some VirusExc.outOfFuel, g)) = _
    rw [if_pos hq]
  have hkeys_iff : ∀ x, x ∈ s.2.1 ↔ x ∈ g.keys ∧ ReachAvoid g id x := by
    intro x
    constructor
    · intro hx
      have hxkeys := hgi.ckSub hx
      refine ⟨hxkeys, ?_⟩
      by_contra hxr
      exact unreach_removed hv hrank hids hgi hxi hq (rank x) x hxkeys rfl
        hxr hx
    · rintro ⟨hxkeys, hxr⟩
      by_contra hxck
      exact hxi.dUnreach x hxkeys hxck hxr
  refine ⟨⟨g.stem_id, s.2.1, s.2.2⟩, hok, rfl, hkeys_iff, ?_, ?_, ?_, ?_⟩
  · show id ∉ s.2.1
    exact unreach_removed hv hrank hids hgi hxi hq (rank id) id hid rfl
      (not_reachAvoid_self g id)
  · show g.stem_id ∈ s.2.1
    exact hgi.stemLive
  · intro x hxkeys hxck
    have hxr : ¬ ReachAvoid g id x := hxi.dUnreach x hxkeys hxck
    exact unreach_desc hv hrank hids (rank x) x hxkeys rfl hxr
  · intro x hx
    have hx2 : x ∈ s.2.1 := hx
    constructor
    · show (s.2.2 x).parents = (g.heap x).parents.filter (· ∈ s.2.1)
      rw [hgi.parentsEq x hx2]
      ext a
      constructor
      · intro ha
        obtain ⟨haP, haD⟩ := Finset.mem_sdiff.mp ha
        refine Finset.mem_filter.mpr ⟨haP, ?_⟩
        have hakeys : a ∈ g.keys := (hv.2.1 x (hgi.ckSub hx2)).1 haP
        by_contra hack
        exact haD (Finset.mem_sdiff.mpr ⟨hakeys, hack⟩)
      · intro ha
        obtain ⟨haP, hack⟩ := Finset.mem_filter.mp ha
        refine Finset.mem_sdiff.mpr ⟨haP, ?_⟩
        intro hc
        exact (Finset.mem_sdiff.mp hc).2 hack
    · show (s.2.2 x).children = (g.heap x).children.filter (· ∈ s.2.1)
      rw [hgi.childrenEq x hx2]
      ext a
      constructor
      · intro ha
        obtain ⟨haC, haD⟩ := Finset.mem_sdiff.mp ha
        refine Finset.mem_filter.mpr ⟨haC, ?_⟩
        have hakeys : a ∈ g.keys := (hv.2.1 x (hgi.ckSub hx2)).2 haC
        by_contra hack
        exact haD (Finset.mem_sdiff.mpr ⟨hakeys, hack⟩)
      · intro ha
        obtain ⟨haC, hack⟩ := Finset.mem_filter.mp ha
        refine Finset.mem_sdiff.mpr ⟨haC, ?_⟩
        intro hc
        exact (Finset.mem_sdiff.mp hc).2 hack

end VirusGenealogy

namespace VirusGenealogy

/-- Topological rank for `exG3`: stem 0 (R) below 1 (A) below 2 (B) and
3 (C). -/
def rankW : Nat → Nat := fun x => if x = 0 then 0 else if x = 1 then 1 else 2

theorem claim_C2_remove_cascade_witness :
    (Valid exG3 ∧
      (∀ a ∈ exG3.keys, ∀ b ∈ exG3.keys, b ∈ (exG3.heap a).children →
        rankW a < rankW b) ∧
      1 ∈ exG3.keys ∧ 1 ≠ exG3.stem_id) ∧
    (∃ g', removeOp exG3 1 = (none, g') ∧ g'.stem_id = exG3.stem_id ∧
      (∀ x, x ∈ g'.keys ↔ x ∈ exG3.keys ∧ ReachAvoid exG3 1 x) ∧
      1 ∉ g'.keys ∧ exG3.stem_id ∈ g'.keys ∧
      (∀ x ∈ exG3.keys, x ∉ g'.keys → ReachFrom exG3 1 x) ∧
      (∀ x ∈ g'.keys,
        (g'.heap x).parents = (exG3.heap x).parents.filter (· ∈ g'.keys) ∧
        (g'.heap x).children =
          (exG3.heap x).children.filter (· ∈ g'.keys))) ∧
    (removeOp exG3 1).1 = none ∧
    (removeOp exG3 1).2.keys = {0, 3} :=
  ⟨⟨by decide, by decide, by decide, by decide⟩,
   claim_C2_remove_cascade exG3 1 rankW (by decide) (by decide) (by decide)
     (by decide),
   by decide, by decide⟩

end VirusGenealogy
